import Mathlib

set_option maxRecDepth 10000

/-!
Verification of the two algorithmic engines of the vendored zlib sources of
this repository: the CRC-32 engine (src/include/zlib/crc32.cpp) and the
Huffman / deflate tree engine (src/include/zlib/trees.cpp).

The embedding is shallow: machine integers are modelled as Nat with explicit
truncation (mod 2^32, mod 2^16) exactly where the C types force it, buffers
are lists of byte values, and the deflate state is an explicit structure that
is threaded through the functions.  The build targets the x86_64 configuration
of crc32.cpp: W = 8, N = 5, little-endian execution, no DYNAMIC_CRC_TABLE.

The contents of the generated table header crc32.hpp are not part of src/;
the table definitions below are modelled from the specification (section 3,
Lookup tables, and section 4.4) and are marked as such in their doc comments.
-/

namespace LunaZlib

/-! ### CRC-32 engine: definitions (crc32.cpp) -/

/-- CRC polynomial, reflected, with the x^32 term implied (crc32.cpp line 149,
POLY 0xedb88320). -/
def POLY : Nat := 0xedb88320

/-- Multiply a reflected residue by x and reduce modulo p(x).  This is the
update expression of multmodp (crc32.cpp line 167): b becomes
(b >> 1) ^ POLY when the low bit of b is set, b >> 1 otherwise. -/
def mulx (b : Nat) : Nat := if b % 2 = 1 then b / 2 ^^^ POLY else b / 2

/-- mulx iterated n times. -/
def mulxn : Nat → Nat → Nat
  | 0, b => b
  | n + 1, b => mulxn n (mulx b)

/-- The infinite for-loop of multmodp (crc32.cpp lines 160-168).  The fuel
argument is the current bit position plus one: the iteration with fuel j + 1
tests bit j of a (the C code tests a and m with m = 2^j and a of type
z_crc_t, so a is below 2^32 and the first call has fuel 32).  The breaking
test (a and (m - 1)) == 0 is a % 2^j = 0.  A none result means the loop runs
out of set bits of a and in C never terminates (m becomes 0, the break is
never reached). -/
def mmLoop (a : Nat) : Nat → Nat → Nat → Option Nat
  | 0, _, _ => none
  | j + 1, b, p =>
    if a.testBit j then
      (if a % 2 ^ j = 0 then some (p ^^^ b) else mmLoop a j (mulx b) (p ^^^ b))
    else mmLoop a j (mulx b) p

/-- multmodp (crc32.cpp lines 155-170): a(x) times b(x) modulo p(x) for a
nonzero 32-bit a; the value 0 stands for the non-terminating executions
(settled separately by the termination theorems). -/
def multmodp (a b : Nat) : Nat := (mmLoop a 32 b 0).getD 0

/-- Break-free version of the multmodp loop: runs all 32 iterations without
the early exit.  Used as the algebraic reference; it agrees with mmLoop on
every terminating execution. -/
def mmF (a : Nat) : Nat → Nat → Nat → Nat
  | 0, _, p => p
  | j + 1, b, p => mmF a j (mulx b) (if a.testBit j then p ^^^ b else p)

/-- Modelled from the spec: the table of x^(2^k) mod p(x) powers used for
O(log n) CRC combination (spec sections 3 and 4.4; the generated table file
crc32.hpp is not part of src/).  Entry 0 is x^1 (the reflected value 1 << 30)
and each further entry is the square of the previous one. -/
def x2n_table : Nat → Nat
  | 0 => 2 ^ 30
  | k + 1 => multmodp (x2n_table k) (x2n_table k)

/-- The while-loop of x2nmodp (crc32.cpp lines 180-185): p is the running
product, n is shifted right each iteration, k counts up and is reduced mod 32
when indexing the table. -/
def x2nAux (n k p : Nat) : Nat :=
  if n = 0 then p
  else x2nAux (n / 2) (k + 1) (if n % 2 = 1 then multmodp (x2n_table (k % 32)) p else p)
termination_by n
decreasing_by exact Nat.div_lt_self (Nat.pos_of_ne_zero (by assumption)) (by decide)

/-- x2nmodp (crc32.cpp lines 176-187): x^(n * 2^k) modulo p(x); the initial
value 1 << 31 is the reflected representation of 1. -/
def x2nmodp (n k : Nat) : Nat := x2nAux n k (2 ^ 31)

/-- Modelled from the spec: the byte-indexed CRC table (spec section 4.4,
table lookup crc = (crc >> 8) ^ table[(crc ^ byte) and 0xFF]; the generated
table file crc32.hpp is not part of src/).  Entry n is n pushed through eight
reflected polynomial division steps, which is the standard generation of the
table from POLY. -/
def crc_table (n : Nat) : Nat := mulxn 8 n

/-- One iteration of the word loop of crc_word (crc32.cpp line 210):
data = (data >> 8) ^ crc_table[data and 0xff]. -/
def wstep (d : Nat) : Nat := (d >>> 8) ^^^ crc_table (d &&& 255)

/-- wstep iterated k times. -/
def wstepn : Nat → Nat → Nat
  | 0, d => d
  | k + 1, d => wstepn k (wstep d)

/-- crc_word (crc32.cpp lines 207-212) with W = 8: the CRC of the eight bytes
of a little-endian word, least significant byte first, no conditioning. -/
def crc_word (d : Nat) : Nat := wstepn 8 d

/-- One byte of the plain table-driven loop (crc32.cpp lines 525-536):
crc = (crc >> 8) ^ crc_table[(crc ^ byte) and 0xff].  The eightfold unrolled
loop at lines 523-533 performs exactly this step eight times in sequence. -/
def byteStep (c b : Nat) : Nat := (c >>> 8) ^^^ crc_table ((c ^^^ b) &&& 255)

/-- The plain byte-at-a-time loop over a whole buffer. -/
def run (c : Nat) (bs : List Nat) : Nat := bs.foldl byteStep c

/-- Modelled from the spec: the braid tables, one table per byte lane within
a word (spec sections 3 and 4.4; crc32.hpp is not part of src/).  The entry
for lane k and byte b is the CRC evolution of byte b advanced across the
remaining N * W - k byte positions of a braid block (N = 5 lanes of W = 8
byte words). -/
def crc_braid_table (k b : Nat) : Nat := mulxn (8 * (40 - k)) b

/-- The per-lane update of the braided loop (crc32.cpp lines 332-365):
crc_j = braid_table[0][word and 0xff] xor-accumulated with
braid_table[k][(word >> (k << 3)) and 0xff] for k = 1..7.  The first
assignment is folded into the chain as 0 xor. -/
def braidStep (d : Nat) : Nat :=
  (List.range 8).foldl (fun c k => c ^^^ crc_braid_table k ((d >>> (8 * k)) &&& 255)) 0

/-- Little-endian word value of a byte list: first byte is least
significant.  Models the reinterpretation of the byte pointer as a word
pointer on a little-endian machine (crc32.cpp line 255). -/
def wordOf : List Nat → Nat
  | [] => 0
  | b :: bs => b + 256 * wordOf bs

/-- Chunk a byte list into 8-byte little-endian words. -/
def toWords : List Nat → List Nat
  | b0 :: b1 :: b2 :: b3 :: b4 :: b5 :: b6 :: b7 :: rest =>
      wordOf [b0, b1, b2, b3, b4, b5, b6, b7] :: toWords rest
  | _ => []

/-- The k low-order bytes of a word, least significant first. -/
def bytesOfWordK : Nat → Nat → List Nat
  | 0, _ => []
  | k + 1, w => (w &&& 255) :: bytesOfWordK k (w >>> 8)

/-- Chunk a byte list into groups of eight; a trailing group of fewer than
eight bytes is dropped (the callers only pass multiples of eight). -/
def chunk8 : List Nat → List (List Nat)
  | b0 :: b1 :: b2 :: b3 :: b4 :: b5 :: b6 :: b7 :: rest =>
      [b0, b1, b2, b3, b4, b5, b6, b7] :: chunk8 rest
  | _ => []

/-- The xor of the lane states, each advanced by its distance (in bytes) to
the end of the braided region: the first lane state is L bytes from the end,
each following lane 8 bytes fewer.  This is the linear-algebra meaning of
the braided accumulators, used to state the loop invariant. -/
def laneSum : List Nat → Nat → Nat
  | [], _ => 0
  | c :: cs, L => mulxn (8 * L) c ^^^ laneSum cs (L - 8)

/-- The final-block merge of the braided path (crc32.cpp lines 372-388):
crc = crc_word(crc0 ^ words[0]); crc = crc_word(crc1 ^ words[1] ^ crc); and
so on through the five lanes.  The lanes are threaded as a list; the first
step is the acc = 0 instance of the general step. -/
def braidMerge : List Nat → List Nat → Nat → Nat
  | c :: cs, w :: ws, acc => braidMerge cs ws (crc_word (c ^^^ w ^^^ acc))
  | _, _, acc => acc

/-- The braided main loop (crc32.cpp lines 310-389) over the word list: while
more than one block of N = 5 words remains, update every lane with braidStep
on lane xor word (the while (--blks) loop runs blks - 1 times), then merge
the lanes with the last block of five words. -/
def braidGo (cs : List Nat) (ws : List Nat) : Nat :=
  if ws.length ≤ 5 then braidMerge cs ws 0
  else braidGo (List.zipWith (fun c w => braidStep (c ^^^ w)) cs (ws.take 5)) (ws.drop 5)
termination_by ws.length
decreasing_by simp; omega

/-- crc32_z (crc32.cpp lines 225-541) for the x86_64 build (W = 8, N = 5,
little-endian):  a missing buffer returns 0; otherwise the crc is
pre-conditioned with (~crc) and 0xffffffff; buffers of at least
N * W + W - 1 bytes take the braided path (align to a word boundary byte by
byte, run the braided loop over blks = len / (N * W) blocks of words, finish
the tail byte by byte), shorter ones the plain byte loop; the result is
post-conditioned.  addr is the machine address of the buffer, which the C
code consults for the word alignment (buf and (W - 1)). -/
def crc32_z (addr crc : Nat) (buf : Option (List Nat)) : Nat :=
  match buf with
  | none => 0
  | some bs =>
    let c0 := crc % 2 ^ 32 ^^^ 0xffffffff
    if 5 * 8 + 8 - 1 ≤ bs.length then
      let al := min ((8 - addr % 8) % 8) bs.length
      let c1 := run c0 (bs.take al)
      let rest := bs.drop al
      let blks := rest.length / 40
      let c2 := braidGo [c1, 0, 0, 0, 0] (toWords (rest.take (blks * 40)))
      run c2 (rest.drop (blks * 40)) ^^^ 0xffffffff
    else run c0 bs ^^^ 0xffffffff

/-- crc32 (crc32.cpp lines 544-547): forwards to crc32_z. -/
def crc32 (addr crc : Nat) (buf : Option (List Nat)) : Nat := crc32_z addr crc buf

/-- The plain byte-at-a-time reference computation: the table loop
crc = (crc >> 8) ^ crc_table[(crc ^ byte) and 0xff] over the whole buffer,
with the same pre- and post-conditioning as crc32_z. -/
def crc32_bytes (crc : Nat) (bs : List Nat) : Nat :=
  run (crc % 2 ^ 32 ^^^ 0xffffffff) bs ^^^ 0xffffffff

/-- crc32_combine64 (crc32.cpp lines 550-555):
multmodp(x2nmodp(len2, 3), crc1) ^ (crc2 and 0xffffffff).  crc1 is truncated
to 32 bits by the z_crc_t parameter conversion of multmodp. -/
def crc32_combine64 (crc1 crc2 len2 : Nat) : Nat :=
  multmodp (x2nmodp len2 3) (crc1 % 2 ^ 32) ^^^ (crc2 % 2 ^ 32)

/-- crc32_combine (crc32.cpp lines 558-560): forwards to crc32_combine64. -/
def crc32_combine (crc1 crc2 len2 : Nat) : Nat := crc32_combine64 crc1 crc2 len2

/-- crc32_combine_op (crc32.cpp lines 576-578):
multmodp(op, crc1) ^ (crc2 and 0xffffffff). -/
def crc32_combine_op (crc1 crc2 op : Nat) : Nat :=
  multmodp (op % 2 ^ 32) (crc1 % 2 ^ 32) ^^^ (crc2 % 2 ^ 32)

/-- Every element of the list is a byte value. -/
def allBytes (bs : List Nat) : Prop := ∀ b ∈ bs, b < 256

instance decidableAllBytes (bs : List Nat) : Decidable (allBytes bs) :=
  List.decidableBAll _ bs

/-- A 32-bit polynomial residue a acts (through the multmodp loop) as
multiplication by x^m on every 32-bit value. -/
def Rep (a m : Nat) : Prop := a < 2 ^ 32 ∧ ∀ c, c < 2 ^ 32 → mmF a 32 c 0 = mulxn m c

/-! ### Huffman / deflate tree engine: definitions (trees.cpp, deflate.hpp)

Machine types: ush is modelled as Nat with explicit mod 65536 on assignment,
uch as Nat with mod 256, ulg as Nat with mod 2^64 (x86_64), int counters that
stay nonnegative as Nat, and the int max_code (which starts at -1) as Int.
Arrays are total functions Nat → _; C array writes become Function.update. -/

/-- deflate.hpp line 10. -/
def LENGTH_CODES : Nat := 29

/-- deflate.hpp line 11. -/
def LITERALS : Nat := 256

/-- deflate.hpp line 12. -/
def L_CODES : Nat := LITERALS + 1 + LENGTH_CODES

/-- deflate.hpp line 13. -/
def D_CODES : Nat := 30

/-- deflate.hpp line 14. -/
def BL_CODES : Nat := 19

/-- deflate.hpp line 15. -/
def HEAP_SIZE : Nat := 2 * L_CODES + 1

/-- deflate.hpp line 16. -/
def MAX_BITS : Nat := 15

/-- deflate.hpp line 17. -/
def Buf_size : Nat := 16

/-- trees.cpp line 7. -/
def MAX_BL_BITS : Nat := 7

/-- trees.cpp line 8. -/
def END_BLOCK : Nat := 256

/-- trees.cpp line 9. -/
def REP_3_6 : Nat := 16

/-- trees.cpp line 10. -/
def REPZ_3_10 : Nat := 17

/-- trees.cpp line 11. -/
def REPZ_11_138 : Nat := 18

/-- Modelled from the spec (section 6, block framing): the 2-bit block type
codes of DEFLATE. zutil.hpp, which defines them, is not part of src/. -/
def STORED_BLOCK : Nat := 0

/-- Modelled from the spec: static-trees block type. -/
def STATIC_TREES : Nat := 1

/-- Modelled from the spec: dynamic-trees block type. -/
def DYN_TREES : Nat := 2

/-- Modelled from the spec (a strategy policy pins the static trees): the
Z_FIXED strategy constant of zlib.h, which is not part of src/. -/
def Z_FIXED : Nat := 4

/-- Modelled from the spec: data-type constant of zlib.h (not in src/). -/
def Z_BINARY : Nat := 0

/-- Modelled from the spec: data-type constant of zlib.h (not in src/). -/
def Z_TEXT : Nat := 1

/-- Modelled from the spec: data-type constant of zlib.h (not in src/). -/
def Z_UNKNOWN : Nat := 2

/-- extra_lbits (trees.cpp lines 12-13): extra bits for each length code. -/
def extra_lbits (n : Nat) : Nat :=
  ([0,0,0,0,0,0,0,0,1,1,1,1,2,2] ++ [2,2,3,3,3,3,4,4,4,4,5,5,5,5,0]).getD n 0

/-- extra_dbits (trees.cpp lines 15-16): extra bits for each distance code. -/
def extra_dbits (n : Nat) : Nat :=
  ([0,0,0,0,1,1,2,2,3,3,4,4,5,5] ++ [6,6,7,7,8,8,9,9,10,10,11,11,12,12,13,13]).getD n 0

/-- extra_blbits (trees.cpp lines 18-19): extra bits for bit-length codes. -/
def extra_blbits (n : Nat) : Nat :=
  ([0,0,0,0,0,0,0,0,0,0] ++ [0,0,0,0,0,0,2,3,7]).getD n 0

/-- bl_order (trees.cpp lines 21-22): order of the bit-length code lengths. -/
def bl_order (n : Nat) : Nat :=
  ([16,17,18,0,8,7,9,6,10,5] ++ [11,4,12,3,13,2,14,1,15]).getD n 0

/-- ct_data (deflate.hpp lines 28-37): fc is the freq/code union, dl the
dad/len union; both are ush slots. -/
structure CtData where
  fc : Nat
  dl : Nat
deriving DecidableEq

/-- static_tree_desc_s (trees.cpp lines 36-42).  static_tree is none for the
bit-length tree (a null pointer in C). -/
structure StaticTreeDesc where
  static_tree : Option (Nat → CtData)
  extra_bits : Nat → Nat
  extra_base : Nat
  elems : Nat
  max_length : Nat

/-- The do-while body of bi_reverse: res gets the low bit of code, then code
shifts right and res shifts left (trees.cpp lines 66-69); the first argument
counts the remaining iterations. -/
def biRevGo : Nat → Nat → Nat → Nat
  | 0, _, res => res
  | n + 1, code, res => biRevGo n (code >>> 1) ((res ||| (code &&& 1)) <<< 1)

/-- bi_reverse (trees.cpp lines 64-71).  The do-while runs max len 1 times
(it tests --len > 0 after the first pass), and the result is res >> 1. -/
def bi_reverse (code len : Nat) : Nat := biRevGo (max len 1) code 0 >>> 1

/-- Modelled from the spec: the fixed literal/length tree of trees.hpp, which
is generated and not part of src/.  Lengths are the DEFLATE fixed lengths
(8 for 0-143, 9 for 144-255, 7 for 256-279, 8 for 280-287) and the stored
code is the canonical code bit-reversed over its length, which is the form
trees.hpp stores. -/
def static_ltree (n : Nat) : CtData :=
  if n ≤ 143 then ⟨bi_reverse (48 + n) 8, 8⟩
  else if n ≤ 255 then ⟨bi_reverse (400 + (n - 144)) 9, 9⟩
  else if n ≤ 279 then ⟨bi_reverse (n - 256) 7, 7⟩
  else ⟨bi_reverse (192 + (n - 280)) 8, 8⟩

/-- Modelled from the spec: the fixed distance tree of trees.hpp (not in
src/): every distance code has length 5, codes are bit-reversed indices. -/
def static_dtree (n : Nat) : CtData := ⟨bi_reverse n 5, 5⟩

/-- static_l_desc (trees.cpp lines 50-51). -/
def static_l_desc : StaticTreeDesc :=
  ⟨some static_ltree, extra_lbits, LITERALS + 1, L_CODES, MAX_BITS⟩

/-- static_d_desc (trees.cpp lines 53-54). -/
def static_d_desc : StaticTreeDesc :=
  ⟨some static_dtree, extra_dbits, 0, D_CODES, MAX_BITS⟩

/-- static_bl_desc (trees.cpp lines 56-57): null static tree. -/
def static_bl_desc : StaticTreeDesc :=
  ⟨none, extra_blbits, 0, BL_CODES, MAX_BL_BITS⟩

/-- The slice of deflate_state (deflate.hpp lines 56-129) that trees.cpp
reads and writes.  pending_buf together with the pending counter is modelled
as the list of bytes queued so far; the max_code field of each tree_desc is
kept directly (the dyn_tree and stat_desc pointers are resolved statically at
each call site, as _tr_init wires them).  The data_type field lives on the
z_stream in C (s->strm->data_type); it is folded into this state record.
The C field called matches is named matches_ here because matches is a
reserved word of Lean. -/
structure DState where
  pending : List Nat
  bi_buf : Nat
  bi_valid : Nat
  dyn_ltree : Nat → CtData
  dyn_dtree : Nat → CtData
  bl_tree : Nat → CtData
  l_max_code : Int
  d_max_code : Int
  bl_max_code : Int
  bl_count : Nat → Nat
  heap : Nat → Nat
  heap_len : Nat
  heap_max : Nat
  depth : Nat → Nat
  sym_buf : Nat → Nat
  sym_next : Nat
  sym_end : Nat
  opt_len : Nat
  static_len : Nat
  matches_ : Nat
  level : Int
  strategy : Nat
  data_type : Nat

/-- put_byte (deflate.hpp line 131): append one byte, truncated by the
Bytef cast. -/
def put_byte (s : DState) (c : Nat) : DState :=
  { s with pending := s.pending ++ [c % 256] }

/-- put_short (trees.cpp lines 59-62): low byte first, then the high byte of
the ush truncation. -/
def put_short (s : DState) (w : Nat) : DState :=
  put_byte (put_byte s (w &&& 0xff)) ((w % 65536) >>> 8)

/-- bi_flush (trees.cpp lines 73-84). -/
def bi_flush (s : DState) : DState :=
  if s.bi_valid = 16 then
    let s1 := put_short s s.bi_buf
    { s1 with bi_buf := 0, bi_valid := 0 }
  else if s.bi_valid ≥ 8 then
    let s1 := put_byte s (s.bi_buf % 256)
    { s1 with bi_buf := s.bi_buf >>> 8, bi_valid := s.bi_valid - 8 }
  else s

/-- bi_windup (trees.cpp lines 86-98). -/
def bi_windup (s : DState) : DState :=
  let s1 :=
    if s.bi_valid > 8 then put_short s s.bi_buf
    else if s.bi_valid > 0 then put_byte s (s.bi_buf % 256)
    else s
  { s1 with bi_buf := 0, bi_valid := 0 }

/-- send_bits (trees.cpp lines 126-138).  bi_buf is ush, so the or-assign
truncates mod 65536; the (ush)val and (ush)(value) casts are value % 65536.
The branch condition is bi_valid > (int)Buf_size - len; all call sites have
len ≤ 16, for which the Nat subtraction matches the int one. -/
def send_bits (s : DState) (value length : Nat) : DState :=
  if Buf_size - length < s.bi_valid then
    let bb := (s.bi_buf ||| (value % 65536) <<< s.bi_valid) % 65536
    let s1 := put_short s bb
    { s1 with bi_buf := (value % 65536) >>> (Buf_size - s.bi_valid),
              bi_valid := s.bi_valid + length - Buf_size }
  else
    { s with bi_buf := (s.bi_buf ||| (value % 65536) <<< s.bi_valid) % 65536,
             bi_valid := s.bi_valid + length }

/-- send_code (trees.cpp line 124): send_bits(s, tree[c].Code, tree[c].Len). -/
def send_code (s : DState) (c : Nat) (tree : Nat → CtData) : DState :=
  send_bits s (tree c).fc (tree c).dl

/-- Write the fc slot (Freq or Code) of entry i, leaving dl alone. -/
def setFc (t : Nat → CtData) (i v : Nat) : Nat → CtData :=
  Function.update t i ⟨v, (t i).dl⟩

/-- Write the dl slot (Dad or Len) of entry i, leaving fc alone. -/
def setDl (t : Nat → CtData) (i v : Nat) : Nat → CtData :=
  Function.update t i ⟨(t i).fc, v⟩

/-- Freq += v on the ush slot. -/
def addFc (t : Nat → CtData) (i v : Nat) : Nat → CtData :=
  setFc t i (((t i).fc + v) % 65536)

/-- init_block (trees.cpp lines 140-150): zero the three frequency arrays,
set the END_BLOCK frequency to 1, and clear opt_len, static_len, sym_next
and matches.  Only the Freq slots of the trees are written. -/
def init_block (s : DState) : DState :=
  { s with
    dyn_ltree := fun n =>
      if n = END_BLOCK then ⟨1, (s.dyn_ltree n).dl⟩
      else if n < L_CODES then ⟨0, (s.dyn_ltree n).dl⟩
      else s.dyn_ltree n,
    dyn_dtree := fun n =>
      if n < D_CODES then ⟨0, (s.dyn_dtree n).dl⟩ else s.dyn_dtree n,
    bl_tree := fun n =>
      if n < BL_CODES then ⟨0, (s.bl_tree n).dl⟩ else s.bl_tree n,
    opt_len := 0, static_len := 0, sym_next := 0, matches_ := 0 }

/-- The next_code recurrence of gen_codes (trees.cpp lines 106-109):
firstCode blc bits is the running code value after the iteration for
bits, i.e. next_code[bits] before the ush truncation. -/
def firstCode (blc : Nat → Nat) : Nat → Nat
  | 0 => 0
  | b + 1 => (firstCode blc b + blc b) * 2

/-- One iteration of the symbol walk of gen_codes (trees.cpp lines
114-121): the fold state is the tree together with the next_code array.
Symbols with len 0 are skipped, the others get
bi_reverse(next_code[len]++, len) as Code, with the ush wrap on both the
stored code and the counter. -/
def gc_body (p : (Nat → CtData) × (Nat → Nat)) (n : Nat) :
    (Nat → CtData) × (Nat → Nat) :=
  let len := (p.1 n).dl
  if len = 0 then p
  else (setFc p.1 n (bi_reverse (p.2 len) len % 65536),
        Function.update p.2 len ((p.2 len + 1) % 65536))

/-- gen_codes (trees.cpp lines 100-122): next_code initialised to the
ush-truncated firstCode values, then the symbol walk. -/
def gen_codes (tree : Nat → CtData) (max_code : Int) (blc : Nat → Nat) :
    Nat → CtData :=
  ((List.range (max_code + 1).toNat).foldl gc_body
    (tree, fun len => firstCode blc len % 65536)).1

/-- The number of symbols before index k whose code length is len.  Used to
state the canonical-code property of gen_codes. -/
def countLen (tree : Nat → CtData) (k len : Nat) : Nat :=
  ((List.range k).filter (fun m => (tree m).dl == len)).length

/-- smaller (trees.cpp lines 180-182). -/
def smaller (tree : Nat → CtData) (n m : Nat) (depth : Nat → Nat) : Bool :=
  decide ((tree n).fc < (tree m).fc ∨
    ((tree n).fc = (tree m).fc ∧ depth n ≤ depth m))

/-- The while loop of pqdownheap (trees.cpp lines 187-197); the fuel only
bounds the iteration count, which is at most log2 of heap_len since j
doubles every pass. -/
def pqdownheapGo (tree : Nat → CtData) (depth : Nat → Nat) (hl : Nat) :
    Nat → (Nat → Nat) → Nat → Nat → Nat → (Nat → Nat)
  | 0, heap, k, _, v => Function.update heap k v
  | fuel + 1, heap, k, j, v =>
    if j ≤ hl then
      let j1 := if j < hl ∧ smaller tree (heap (j + 1)) (heap j) depth
                then j + 1 else j
      if smaller tree v (heap j1) depth then Function.update heap k v
      else pqdownheapGo tree depth hl fuel
        (Function.update heap k (heap j1)) j1 (2 * j1) v
    else Function.update heap k v

/-- pqdownheap (trees.cpp lines 184-199): restore the heap property below
slot k.  v = heap[k] and j = 2k before the loop; fuel hl + 1 dominates the
loop count. -/
def pqdownheap (tree : Nat → CtData) (depth : Nat → Nat) (hl : Nat)
    (heap : Nat → Nat) (k : Nat) : Nat → Nat :=
  pqdownheapGo tree depth hl (hl + 1) heap k (2 * k) (heap k)

/-- The fold state of the first gen_bitlen loop (trees.cpp lines 219-232). -/
structure GBState where
  tree : Nat → CtData
  blc : Nat → Nat
  opt_len : Nat
  static_len : Nat
  overflow : Nat

/-- One iteration of the first gen_bitlen loop (trees.cpp lines 219-232),
at heap index h.  bits is clamped to max_length (counting overflow); the
(ush)bits cast is the identity because bits ≤ max_length ≤ 15 after the
clamp.  Internal nodes (n > max_code) only get their Len written. -/
def gen_bitlen_body (heap : Nat → Nat) (max_code : Int) (sd : StaticTreeDesc)
    (st : GBState) (h : Nat) : GBState :=
  let n := heap h
  let bits0 := (st.tree (st.tree n).dl).dl + 1
  let bits := if sd.max_length < bits0 then sd.max_length else bits0
  let overflow := if sd.max_length < bits0 then st.overflow + 1 else st.overflow
  let tree1 := setDl st.tree n bits
  if (n : Int) > max_code then { st with tree := tree1, overflow := overflow }
  else
    let xbits := if sd.extra_base ≤ n then sd.extra_bits (n - sd.extra_base) else 0
    let f := (st.tree n).fc
    { tree := tree1,
      blc := Function.update st.blc bits (st.blc bits + 1),
      opt_len := (st.opt_len + f * (bits + xbits)) % 2 ^ 64,
      static_len :=
        match sd.static_tree with
        | some stree => (st.static_len + f * ((stree n).dl + xbits)) % 2 ^ 64
        | none => st.static_len,
      overflow := overflow }

/-- The bucket search of the repair loop (trees.cpp line 238): the highest
index ≤ the argument with a nonzero count.  Running past index 0 is
undefined behaviour in C (the loop would read bl_count[-1]); that case is
none. -/
def findRepairBits (blc : Nat → Nat) : Nat → Option Nat
  | 0 => if blc 0 ≠ 0 then some 0 else none
  | b + 1 => if blc (b + 1) ≠ 0 then some (b + 1) else findRepairBits blc b

/-- The repair do-while of gen_bitlen (trees.cpp lines 236-243).  The found
bucket is nonzero so its decrement cannot wrap; the two other updates are on
ush slots and keep the explicit wrap.  Each pass decrements overflow by 2
and the loop continues while it is still positive, so fuel = entry overflow
is enough and fuel exhaustion is unreachable from the call site. -/
def repairGo (maxl : Nat) : Nat → (Nat → Nat) → Nat → Option (Nat → Nat)
  | 0, _, _ => none
  | fuel + 1, blc, ov =>
    match findRepairBits blc (maxl - 1) with
    | none => none
    | some bits =>
      let blc1 := Function.update blc bits (blc bits - 1)
      let blc2 := Function.update blc1 (bits + 1) ((blc1 (bits + 1) + 2) % 65536)
      let blc3 := Function.update blc2 maxl
        (if blc2 maxl = 0 then 65535 else blc2 maxl - 1)
      if ov ≤ 2 then some blc3 else repairGo maxl fuel blc3 (ov - 2)

/-- The inner while of the length reassignment (trees.cpp lines 247-256):
pop n entries for the current bits value, walking h downward.  h reaching 0
with entries still owed means the C loop would read heap[-1]: none. -/
def reassignInner (max_code : Int) (heap : Nat → Nat) (bits : Nat) :
    Nat → Nat → (Nat → CtData) → Nat → Option ((Nat → CtData) × Nat × Nat)
  | h, 0, tree, opt => some (tree, opt, h)
  | 0, _ + 1, _, _ => none
  | h + 1, n + 1, tree, opt =>
    let m := heap h
    if (m : Int) > max_code then reassignInner max_code heap bits h (n + 1) tree opt
    else
      let f := (tree m).fc
      let len := (tree m).dl
      let tree1 := if len ≠ bits then setDl tree m bits else tree
      let opt1 :=
        if len ≠ bits then (opt + ((bits + 2 ^ 64 - len) % 2 ^ 64) * f) % 2 ^ 64
        else opt
      reassignInner max_code heap bits h n tree1 opt1

/-- The outer reassignment loop (trees.cpp lines 245-257): bits from
max_length down to 1. -/
def reassignOuter (max_code : Int) (heap : Nat → Nat) (blc : Nat → Nat) :
    Nat → Nat → (Nat → CtData) → Nat → Option ((Nat → CtData) × Nat × Nat)
  | 0, h, tree, opt => some (tree, opt, h)
  | bits + 1, h, tree, opt =>
    match reassignInner max_code heap (bits + 1) h (blc (bits + 1)) tree opt with
    | none => none
    | some (tree1, opt1, h1) => reassignOuter max_code heap blc bits h1 tree1 opt1

/-- gen_bitlen (trees.cpp lines 201-258).  Reads the heap laid out by the
build_tree merge loop between heap_max and HEAP_SIZE; returns the updated
state (bl_count, opt_len, static_len) and tree, or none on the
undefined-behaviour paths of the repair phase. -/
def gen_bitlen (s : DState) (tree : Nat → CtData) (max_code : Int)
    (sd : StaticTreeDesc) : Option (DState × (Nat → CtData)) :=
  let blc0 := (List.range (MAX_BITS + 1)).foldl
    (fun f bits => Function.update f bits 0) s.bl_count
  let tree0 := setDl tree (s.heap s.heap_max) 0
  let ph := ((List.range (HEAP_SIZE - (s.heap_max + 1))).map
      (fun i => s.heap_max + 1 + i)).foldl
    (gen_bitlen_body s.heap max_code sd) ⟨tree0, blc0, s.opt_len, s.static_len, 0⟩
  if ph.overflow = 0 then
    some ({ s with bl_count := ph.blc, opt_len := ph.opt_len,
                   static_len := ph.static_len }, ph.tree)
  else
    match repairGo sd.max_length ph.overflow ph.blc ph.overflow with
    | none => none
    | some blc1 =>
      match reassignOuter max_code s.heap blc1 sd.max_length HEAP_SIZE
          ph.tree ph.opt_len with
      | none => none
      | some (tree1, opt1, _) =>
        some ({ s with bl_count := blc1, opt_len := opt1,
                       static_len := ph.static_len }, tree1)

/-- The working state of build_tree before the merge loop. -/
structure BTState where
  heap : Nat → Nat
  heap_len : Nat
  depth : Nat → Nat
  tree : Nat → CtData
  max_code : Int
  opt_len : Nat
  static_len : Nat

/-- One pass of the leaf-collection loop of build_tree (trees.cpp lines
274-282): used symbols go onto the heap with depth 0, unused ones get
Len 0. -/
def btCollectBody (st : BTState) (n : Nat) : BTState :=
  if (st.tree n).fc ≠ 0 then
    { st with heap_len := st.heap_len + 1,
              heap := Function.update st.heap (st.heap_len + 1) n,
              max_code := (n : Int),
              depth := Function.update st.depth n 0 }
  else { st with tree := setDl st.tree n 0 }

/-- The synthetic-leaf while loop of build_tree (trees.cpp lines 284-289):
while heap_len < 2, push node = (max_code < 2 ? ++max_code : 0) with
frequency forced to 1, decrement opt_len (ulg wrap) and, for a static
descriptor, static_len.  heap_len grows every pass, so fuel 2 runs the loop
exactly as the C does. -/
def btSynth (sd : StaticTreeDesc) : Nat → BTState → BTState
  | 0, st => st
  | fuel + 1, st =>
    if st.heap_len < 2 then
      let node := if st.max_code < 2 then (st.max_code + 1).toNat else 0
      let mc := if st.max_code < 2 then st.max_code + 1 else st.max_code
      btSynth sd fuel
        { st with
          heap_len := st.heap_len + 1,
          heap := Function.update st.heap (st.heap_len + 1) node,
          max_code := mc,
          tree := setFc st.tree node 1,
          depth := Function.update st.depth node 0,
          opt_len := (st.opt_len + 2 ^ 64 - 1) % 2 ^ 64,
          static_len :=
            match sd.static_tree with
            | some stree => (st.static_len + 2 ^ 64 - (stree node).dl % 2 ^ 64) % 2 ^ 64
            | none => st.static_len }
    else st

/-- The state threaded through the merge loop of build_tree. -/
structure MGState where
  heap : Nat → Nat
  heap_len : Nat
  heap_max : Nat
  depth : Nat → Nat
  tree : Nat → CtData

/-- The merge do-while of build_tree (trees.cpp lines 295-314): pqremove the
two smallest nodes n and m, park them at heap[--heap_max] slots, create the
internal node (Freq sum on a ush slot, depth max + 1 on a uch slot, Dad
pointers through the ush cast, which is the identity since node < 65536 at
every call), push it at the heap top and sift.  heap_len drops by 1 every
pass, so fuel = entry heap_len covers the loop. -/
def btMergeGo : Nat → MGState → Nat → MGState × Nat
  | 0, st, node => (st, node)
  | fuel + 1, st, node =>
    let n := st.heap 1
    let heap1 := Function.update st.heap 1 (st.heap st.heap_len)
    let hl1 := st.heap_len - 1
    let heap2 := pqdownheap st.tree st.depth hl1 heap1 1
    let m := heap2 1
    let heap3 := Function.update heap2 (st.heap_max - 1) n
    let heap4 := Function.update heap3 (st.heap_max - 2) m
    let tree1 := setFc st.tree node (((st.tree n).fc + (st.tree m).fc) % 65536)
    let depth1 := Function.update st.depth node
      ((max (st.depth n) (st.depth m) + 1) % 256)
    let tree2 := setDl tree1 n (node % 65536)
    let tree3 := setDl tree2 m (node % 65536)
    let heap5 := Function.update heap4 1 node
    let heap6 := pqdownheap tree3 depth1 hl1 heap5 1
    let st1 : MGState := ⟨heap6, hl1, st.heap_max - 2, depth1, tree3⟩
    if 2 ≤ hl1 then btMergeGo fuel st1 (node + 1) else (st1, node + 1)

/-- build_tree (trees.cpp lines 264-321): collect leaves, synthesize up to
two frequency-1 leaves, heapify, merge, park the root, then gen_bitlen and
gen_codes.  Returns the updated state, the tree array and max_code, or none
on the undefined-behaviour paths of gen_bitlen. -/
def build_tree (s : DState) (tree : Nat → CtData) (sd : StaticTreeDesc) :
    Option (DState × (Nat → CtData) × Int) :=
  let c1 := (List.range sd.elems).foldl btCollectBody
    ⟨s.heap, 0, s.depth, tree, -1, s.opt_len, s.static_len⟩
  let c2 := btSynth sd 2 c1
  let heapified := ((List.range (c2.heap_len / 2)).reverse.map (fun i => i + 1)).foldl
    (fun hp n => pqdownheap c2.tree c2.depth c2.heap_len hp n) c2.heap
  let mg := (btMergeGo c2.heap_len
    ⟨heapified, c2.heap_len, HEAP_SIZE, c2.depth, c2.tree⟩ sd.elems).1
  let heapF := Function.update mg.heap (mg.heap_max - 1) (mg.heap 1)
  let sF := { s with heap := heapF, heap_len := mg.heap_len,
                     heap_max := mg.heap_max - 1, depth := mg.depth,
                     opt_len := c2.opt_len, static_len := c2.static_len }
  match gen_bitlen sF mg.tree c2.max_code sd with
  | none => none
  | some (s2, tree2) => some (s2, gen_codes tree2 c2.max_code s2.bl_count, c2.max_code)

/-- The fold state of scan_tree (trees.cpp lines 323-364). -/
structure ScanState where
  bl : Nat → CtData
  prevlen : Int
  nextlen : Nat
  count : Nat
  max_count : Nat
  min_count : Nat

/-- One iteration of the scan_tree loop (trees.cpp lines 335-363), counting
run-length codes into the bit-length tree frequencies. -/
def scan_tree_body (tree0 : Nat → CtData) (st : ScanState) (n : Nat) : ScanState :=
  let curlen := st.nextlen
  let nextlen := (tree0 (n + 1)).dl
  let count := st.count + 1
  if count < st.max_count ∧ curlen = nextlen then
    { st with nextlen := nextlen, count := count }
  else
    let bl1 :=
      if count < st.min_count then addFc st.bl curlen count
      else if curlen ≠ 0 then
        let b1 := if (curlen : Int) ≠ st.prevlen then addFc st.bl curlen 1 else st.bl
        addFc b1 REP_3_6 1
      else if count ≤ 10 then addFc st.bl REPZ_3_10 1
      else addFc st.bl REPZ_11_138 1
    let mm : Nat × Nat :=
      if nextlen = 0 then (138, 3)
      else if curlen = nextlen then (6, 3) else (7, 4)
    ⟨bl1, (curlen : Int), nextlen, 0, mm.1, mm.2⟩

/-- scan_tree (trees.cpp lines 323-364).  nextlen and the initial
max_count/min_count are read from the tree before the 0xffff sentinel is
written at index max_code + 1; the loop reads the sentinel-carrying tree.
Returns the state with updated bl_tree frequencies and the mutated tree. -/
def scan_tree (s : DState) (tree : Nat → CtData) (max_code : Int) :
    DState × (Nat → CtData) :=
  let nextlen0 := (tree 0).dl
  let mm0 : Nat × Nat := if nextlen0 = 0 then (138, 3) else (7, 4)
  let tree0 := setDl tree (max_code + 1).toNat 0xffff
  let fin := (List.range (max_code + 1).toNat).foldl (scan_tree_body tree0)
    ⟨s.bl_tree, -1, nextlen0, 0, mm0.1, mm0.2⟩
  ({ s with bl_tree := fin.bl }, tree0)

/-- The fold state of send_tree (trees.cpp lines 366-409). -/
structure SendState where
  s : DState
  prevlen : Int
  nextlen : Nat
  count : Nat
  max_count : Nat
  min_count : Nat

/-- One iteration of the send_tree loop (trees.cpp lines 377-408), emitting
the run-length coded lengths through the bit-length tree.  The Nat
subtractions count - 3 and count - 11 match the C ints because the branch
guards give count ≥ min_count ≥ 3 resp. count ≥ 11. -/
def send_tree_body (tree : Nat → CtData) (st : SendState) (n : Nat) : SendState :=
  let curlen := st.nextlen
  let nextlen := (tree (n + 1)).dl
  let count := st.count + 1
  if count < st.max_count ∧ curlen = nextlen then
    { st with nextlen := nextlen, count := count }
  else
    let s1 :=
      if count < st.min_count then
        (List.range count).foldl (fun s _ => send_code s curlen s.bl_tree) st.s
      else if curlen ≠ 0 then
        let pa : DState × Nat :=
          if (curlen : Int) ≠ st.prevlen
          then (send_code st.s curlen st.s.bl_tree, count - 1)
          else (st.s, count)
        let sb := send_code pa.1 REP_3_6 pa.1.bl_tree
        send_bits sb (pa.2 - 3) 2
      else if count ≤ 10 then
        let sa := send_code st.s REPZ_3_10 st.s.bl_tree
        send_bits sa (count - 3) 3
      else
        let sa := send_code st.s REPZ_11_138 st.s.bl_tree
        send_bits sa (count - 11) 7
    let mm : Nat × Nat :=
      if nextlen = 0 then (138, 3)
      else if curlen = nextlen then (6, 3) else (7, 4)
    ⟨s1, (curlen : Int), nextlen, 0, mm.1, mm.2⟩

/-- send_tree (trees.cpp lines 366-409).  Unlike scan_tree it writes no
sentinel; its callers rely on the one scan_tree left in place. -/
def send_tree (s : DState) (tree : Nat → CtData) (max_code : Int) : DState :=
  let nextlen0 := (tree 0).dl
  let mm0 : Nat × Nat := if nextlen0 = 0 then (138, 3) else (7, 4)
  ((List.range (max_code + 1).toNat).foldl (send_tree_body tree)
    ⟨s, -1, nextlen0, 0, mm0.1, mm0.2⟩).s

/-- The max_blindex search of build_bl_tree (trees.cpp lines 418-420):
largest index ≥ 3 whose bl_order slot has nonzero length, or 2 when none
has (the for loop falls through with max_blindex = 2). -/
def findMaxBl (bl : Nat → CtData) : Nat → Nat
  | 0 => 0
  | 1 => 1
  | 2 => 2
  | i + 3 => if (bl (bl_order (i + 3))).dl ≠ 0 then i + 3 else findMaxBl bl (i + 2)

/-- build_bl_tree (trees.cpp lines 411-426): scan both main trees, build the
bit-length tree, find max_blindex and add the tree-header cost to opt_len. -/
def build_bl_tree (s : DState) : Option (DState × Nat) :=
  let p1 := scan_tree s s.dyn_ltree s.l_max_code
  let s1 := { p1.1 with dyn_ltree := p1.2 }
  let p2 := scan_tree s1 s1.dyn_dtree s1.d_max_code
  let s2 := { p2.1 with dyn_dtree := p2.2 }
  match build_tree s2 s2.bl_tree static_bl_desc with
  | none => none
  | some (s3, blt, blmax) =>
    let s4 := { s3 with bl_tree := blt, bl_max_code := blmax }
    let mbi := findMaxBl s4.bl_tree (BL_CODES - 1)
    some ({ s4 with opt_len := (s4.opt_len + 3 * (mbi + 1) + 5 + 5 + 4) % 2 ^ 64 }, mbi)

/-- send_all_trees (trees.cpp lines 428-445). -/
def send_all_trees (s : DState) (lcodes dcodes blcodes : Nat) : DState :=
  let s1 := send_bits s (lcodes - 257) 5
  let s2 := send_bits s1 (dcodes - 1) 5
  let s3 := send_bits s2 (blcodes - 4) 4
  let s4 := (List.range blcodes).foldl
    (fun st rank => send_bits st ((st.bl_tree (bl_order rank)).dl) 3) s3
  let s5 := send_tree s4 s4.dyn_ltree ((lcodes : Int) - 1)
  send_tree s5 s5.dyn_dtree ((dcodes : Int) - 1)

/-- _tr_stored_block (trees.cpp lines 447-456): 3-bit header, byte-align,
LEN and one-complement NLEN as ush, then the raw bytes. -/
def tr_stored_block (s : DState) (buf : List Nat) (stored_len : Nat)
    (last : Bool) : DState :=
  let s1 := send_bits s ((STORED_BLOCK <<< 1) + (if last then 1 else 0)) 3
  let s2 := bi_windup s1
  let s3 := put_short s2 (stored_len % 65536)
  let s4 := put_short s3 (65535 - stored_len % 65536)
  { s4 with pending := s4.pending ++ buf.take stored_len }

/-- d_code (deflate.hpp lines 145-146), with the _dist_code table passed in
because trees.hpp is not part of src/. -/
def d_code (dist_code : Nat → Nat) (dist : Nat) : Nat :=
  if dist < 256 then dist_code dist else dist_code (256 + (dist >>> 7))

/-- The do-while of compress_block (trees.cpp lines 479-508), reading
symbols from sym_buf three bytes at a time.  The Nat subtractions
lc - base_length[code] and dist - base_dist[code] match the C values on the
well-formed symbol buffers deflate produces.  sx advances by 3 each pass, so
fuel = sym_next covers the loop. -/
def compress_go (ltree dtree : Nat → CtData)
    (length_code dist_code baseLength baseDist : Nat → Nat)
    (sym_buf : Nat → Nat) (sym_next : Nat) : Nat → Nat → DState → DState
  | 0, _, s => s
  | fuel + 1, sx, s =>
    let dist := (sym_buf sx &&& 255) + ((sym_buf (sx + 1) &&& 255) <<< 8)
    let lc := sym_buf (sx + 2)
    let sx1 := sx + 3
    let s1 :=
      if dist = 0 then send_code s lc ltree
      else
        let code := length_code lc
        let sa := send_code s (code + LITERALS + 1) ltree
        let extra := extra_lbits code
        let sb := if extra ≠ 0 then send_bits sa (lc - baseLength code) extra else sa
        let dist1 := dist - 1
        let dcode := d_code dist_code dist1
        let sc := send_code sb dcode dtree
        let extrad := extra_dbits dcode
        if extrad ≠ 0 then send_bits sc (dist1 - baseDist dcode) extrad else sc
    if sx1 < sym_next then
      compress_go ltree dtree length_code dist_code baseLength baseDist
        sym_buf sym_next fuel sx1 s1
    else s1

/-- compress_block (trees.cpp lines 471-511): emit all buffered symbols,
then the END_BLOCK code.  The _length_code, _dist_code, base_length and
base_dist tables of trees.hpp are not in src/ and are taken as arguments. -/
def compress_block (length_code dist_code baseLength baseDist : Nat → Nat)
    (s : DState) (ltree dtree : Nat → CtData) : DState :=
  let s1 :=
    if s.sym_next ≠ 0 then
      compress_go ltree dtree length_code dist_code baseLength baseDist
        s.sym_buf s.sym_next s.sym_next 0 s
    else s
  send_code s1 END_BLOCK ltree

/-- detect_data_type (trees.cpp lines 513-529). -/
def detect_data_type (s : DState) : Nat :=
  if (List.range 32).any
      (fun n => Nat.testBit 0xf3ffc07f n && decide ((s.dyn_ltree n).fc ≠ 0))
  then Z_BINARY
  else if (s.dyn_ltree 9).fc ≠ 0 ∨ (s.dyn_ltree 10).fc ≠ 0 ∨
          (s.dyn_ltree 13).fc ≠ 0 then Z_TEXT
  else if (List.range (LITERALS - 32)).any
      (fun i => decide ((s.dyn_ltree (32 + i)).fc ≠ 0)) then Z_TEXT
  else Z_BINARY

/-- The opt_lenb reassignment of _tr_flush_block (trees.cpp lines 557-559):
the cost the comparison uses is static_lenb when static_lenb ≤ opt_lenb or
the strategy is Z_FIXED, the dynamic cost otherwise. -/
def chosen_cost (opt_lenb static_lenb : Nat) (fixedStrategy : Bool) : Nat :=
  if static_lenb ≤ opt_lenb ∨ fixedStrategy then static_lenb else opt_lenb

/-- The block-encoding decision of _tr_flush_block (trees.cpp lines
569-586), taking the (possibly reassigned) opt_lenb: stored when
stored_len + 4 ≤ opt_lenb and a raw buffer is present, else static when
static_lenb = opt_lenb, else dynamic. -/
def block_choice (stored_len : Nat) (buf_present : Bool)
    (opt_lenb static_lenb : Nat) : Nat :=
  if stored_len + 4 ≤ opt_lenb ∧ buf_present then STORED_BLOCK
  else if static_lenb = opt_lenb then STATIC_TREES
  else DYN_TREES

/-- Modelled from the claim wording for the refinement comparison of C6: the
decision rule as the specification states it, with the stored test against
the best (minimum) of the dynamic and static byte costs. -/
def block_choice_spec (stored_len : Nat) (buf_present : Bool)
    (opt_lenb static_lenb : Nat) (fixedStrategy : Bool) : Nat :=
  if stored_len + 4 ≤ min opt_lenb static_lenb ∧ buf_present then STORED_BLOCK
  else if static_lenb ≤ opt_lenb ∨ fixedStrategy then STATIC_TREES
  else DYN_TREES

/-- The emission stage of _tr_flush_block (trees.cpp lines 569-590),
dispatching on block_choice. -/
def tr_emit (length_code dist_code baseLength baseDist : Nat → Nat)
    (s : DState) (buf : Option (List Nat)) (stored_len : Nat) (last : Bool)
    (opt_lenb static_lenb : Nat) (max_blindex : Nat) : DState :=
  let c := block_choice stored_len buf.isSome opt_lenb static_lenb
  if c = STORED_BLOCK then tr_stored_block s (buf.getD []) stored_len last
  else if c = STATIC_TREES then
    let s1 := send_bits s ((STATIC_TREES <<< 1) + (if last then 1 else 0)) 3
    compress_block length_code dist_code baseLength baseDist s1
      static_ltree static_dtree
  else
    let s1 := send_bits s ((DYN_TREES <<< 1) + (if last then 1 else 0)) 3
    let s2 := send_all_trees s1 ((s1.l_max_code + 1).toNat)
      ((s1.d_max_code + 1).toNat) (max_blindex + 1)
    compress_block length_code dist_code baseLength baseDist s2
      s2.dyn_ltree s2.dyn_dtree

/-- _tr_flush_block (trees.cpp lines 531-602).  At level > 0 the three trees
are built (resolving data_type first if unknown) and the costs in bytes are
derived from opt_len and static_len; at level ≤ 0 both costs are
stored_len + 5.  Then the chosen encoding is emitted, init_block resets the
frequency state, and a final block flushes the bit accumulator. -/
def tr_flush_pre (s : DState) (stored_len : Nat) :
    Option (DState × Nat × Nat × Nat) :=
  if 0 < s.level then
      let s0 := if s.data_type = Z_UNKNOWN
                then { s with data_type := detect_data_type s } else s
      match build_tree s0 s0.dyn_ltree static_l_desc with
      | none => none
      | some (s1, lt, lmax) =>
        let s1a := { s1 with dyn_ltree := lt, l_max_code := lmax }
        match build_tree s1a s1a.dyn_dtree static_d_desc with
        | none => none
        | some (s2, dt, dmax) =>
          let s2a := { s2 with dyn_dtree := dt, d_max_code := dmax }
          match build_bl_tree s2a with
          | none => none
          | some (s3, mbi) =>
            let opt_lenb := (s3.opt_len + 3 + 7) >>> 3
            let static_lenb := (s3.static_len + 3 + 7) >>> 3
            some (s3, chosen_cost opt_lenb static_lenb
                    (decide (s3.strategy = Z_FIXED)), static_lenb, mbi)
  else some (s, stored_len + 5, stored_len + 5, 0)

/-- _tr_flush_block, stage 2: emit the chosen encoding, reset the frequency
state with init_block, and byte-align the stream on the final block. -/
def tr_flush_block (length_code dist_code baseLength baseDist : Nat → Nat)
    (s : DState) (buf : Option (List Nat)) (stored_len : Nat) (last : Bool) :
    Option DState :=
  match tr_flush_pre s stored_len with
  | none => none
  | some (sp, opt_lenb, static_lenb, mbi) =>
    let se := tr_emit length_code dist_code baseLength baseDist sp buf
      stored_len last opt_lenb static_lenb mbi
    let sf := init_block se
    some (if last then bi_windup sf else sf)

/-- The eight bits of a byte, least significant first. -/
def bitsOfByte (b : Nat) : List Bool := (List.range 8).map (fun i => Nat.testBit b i)

/-- A byte list as a bit stream, least significant bit of each byte first. -/
def bitsOfBytes (l : List Nat) : List Bool := (l.map bitsOfByte).flatten

/-- The logical bit stream of the writer: the emitted bytes followed by the
bi_valid live bits of the accumulator, least significant first.  This
observation is endianness-free: it only depends on the byte sequence and the
accumulator value. -/
def streamBits (s : DState) : List Bool :=
  bitsOfBytes s.pending ++ (List.range s.bi_valid).map (fun i => Nat.testBit s.bi_buf i)



/-- A concrete quiescent state used to instantiate theorems with hypotheses
at checkable inputs. -/
def baseState : DState :=
  { pending := [], bi_buf := 0, bi_valid := 0,
    dyn_ltree := fun _ => ⟨0, 0⟩, dyn_dtree := fun _ => ⟨0, 0⟩,
    bl_tree := fun _ => ⟨0, 0⟩,
    l_max_code := -1, d_max_code := -1, bl_max_code := -1,
    bl_count := fun _ => 0, heap := fun _ => 0, heap_len := 0,
    heap_max := HEAP_SIZE, depth := fun _ => 0, sym_buf := fun _ => 0,
    sym_next := 0, sym_end := 0, opt_len := 0, static_len := 0,
    matches_ := 0, level := 0, strategy := 0, data_type := 0 }

/-! ### Bit-level helper lemmas -/

theorem xor_shiftRight (x y k : Nat) : (x ^^^ y) >>> k = x >>> k ^^^ y >>> k := by
  apply Nat.eq_of_testBit_eq
  intro i
  simp [Nat.testBit_shiftRight, Nat.testBit_xor]

theorem xor_left_comm (a b c : Nat) : a ^^^ (b ^^^ c) = b ^^^ (a ^^^ c) := by
  rw [← Nat.xor_assoc, Nat.xor_comm a b, Nat.xor_assoc]

theorem xor4 (a b c d : Nat) : (a ^^^ b) ^^^ (c ^^^ d) = (a ^^^ c) ^^^ (b ^^^ d) := by
  rw [Nat.xor_assoc, xor_left_comm b c, ← Nat.xor_assoc]

theorem xor_mod_two (x y : Nat) : (x ^^^ y) % 2 = x % 2 ^^^ y % 2 := by
  have h := Nat.testBit_xor x y 0
  simp only [Nat.testBit_zero] at h
  rcases Nat.mod_two_eq_zero_or_one x with hx | hx <;>
    rcases Nat.mod_two_eq_zero_or_one y with hy | hy <;>
    rcases Nat.mod_two_eq_zero_or_one (x ^^^ y) with hxy | hxy <;>
    simp [hx, hy, hxy] at h ⊢

theorem mod_two_pow_eq_zero_iff (a n : Nat) :
    a % 2 ^ n = 0 ↔ ∀ i < n, a.testBit i = false := by
  constructor
  · intro h i hi
    have := Nat.testBit_mod_two_pow a n i
    rw [h] at this
    simp [hi] at this
    exact this
  · intro h
    apply Nat.eq_of_testBit_eq
    intro i
    rw [Nat.testBit_mod_two_pow]
    by_cases hi : i < n
    · simp [hi, h i hi]
    · simp [hi]

theorem two_pow_add_eq_xor {n lo : Nat} (h : lo < 2 ^ n) : 2 ^ n + lo = 2 ^ n ^^^ lo := by
  apply Nat.eq_of_testBit_eq
  intro i
  rw [Nat.testBit_xor, Nat.testBit_two_pow]
  rcases Nat.lt_trichotomy i n with hi | hi | hi
  · have hne : ¬ (n = i) := by omega
    have hdvd : (2 : Nat) ^ i ∣ 2 ^ n := pow_dvd_pow 2 (Nat.le_of_lt hi)
    have h2 : 2 ^ n / 2 ^ i = 2 * 2 ^ (n - i - 1) := by
      rw [Nat.pow_div (by omega) (by norm_num)]
      rw [← pow_succ']
      congr 1
      omega
    rw [Nat.testBit_to_div_mod, Nat.testBit_to_div_mod,
        Nat.add_div_of_dvd_right hdvd, h2, Nat.mul_add_mod]
    simp [hne]
  · subst hi
    have h1 : (2 ^ i + lo) / 2 ^ i = 1 + lo / 2 ^ i :=
      Nat.add_div_of_dvd_right dvd_rfl |>.trans (by rw [Nat.div_self (by positivity)])
    rw [Nat.testBit_to_div_mod, h1, Nat.div_eq_of_lt h, Nat.testBit_lt_two_pow h]
    simp
  · have hbig : 2 ^ n + lo < 2 ^ i := by
      have : 2 ^ (n + 1) ≤ 2 ^ i := Nat.pow_le_pow_right (by norm_num) hi
      have := Nat.pow_lt_pow_right (by norm_num : 1 < 2) hi
      omega
    rw [Nat.testBit_lt_two_pow hbig,
        Nat.testBit_lt_two_pow (lt_trans h (Nat.pow_lt_pow_right (by norm_num) hi))]
    simp
    omega

theorem add_eq_xor_of_lt {k b : Nat} (w : Nat) (h : b < 2 ^ k) :
    b + 2 ^ k * w = b ^^^ 2 ^ k * w := by
  apply Nat.eq_of_testBit_eq
  intro i
  rw [Nat.testBit_xor]
  have hshift : 2 ^ k * w = w <<< k := by rw [Nat.shiftLeft_eq, Nat.mul_comm]
  rcases Nat.lt_or_ge i k with hi | hi
  · have hdvd : (2 : Nat) ^ i ∣ 2 ^ k * w := Dvd.dvd.mul_right (pow_dvd_pow 2 (Nat.le_of_lt hi)) w
    have h2 : 2 ^ k * w / 2 ^ i = 2 * (2 ^ (k - i - 1) * w) := by
      have hk : (2 : Nat) ^ k = 2 ^ i * (2 * 2 ^ (k - i - 1)) := by
        rw [← pow_succ', ← pow_add]
        congr 1
        omega
      rw [hk, Nat.mul_assoc, Nat.mul_div_cancel_left _ (Nat.two_pow_pos i), Nat.mul_assoc]
    rw [Nat.testBit_to_div_mod, Nat.add_comm, Nat.add_div_of_dvd_right hdvd, h2,
        Nat.mul_add_mod, ← Nat.testBit_to_div_mod, hshift, Nat.testBit_shiftLeft]
    simp [Nat.not_le.mpr hi]
  · have h1 : (b + 2 ^ k * w) / 2 ^ i = w / 2 ^ (i - k) := by
      have hsplit : (2 : Nat) ^ i = 2 ^ k * 2 ^ (i - k) := by
        rw [← pow_add]
        congr 1
        omega
      rw [hsplit, ← Nat.div_div_eq_div_mul, Nat.add_comm,
          Nat.mul_add_div (Nat.two_pow_pos k) w b, Nat.div_eq_of_lt h, Nat.add_zero]
    rw [Nat.testBit_to_div_mod, h1, ← Nat.testBit_to_div_mod, hshift, Nat.testBit_shiftLeft,
        Nat.testBit_lt_two_pow (lt_of_lt_of_le h (Nat.pow_le_pow_right (by norm_num) hi))]
    simp [hi]

/-- Two xor-linear maps that agree on the power-of-two basis agree on all
values below the corresponding power. -/
theorem lin_eq_on (n : Nat) (F G : Nat → Nat)
    (hF0 : F 0 = 0) (hFx : ∀ x y, F (x ^^^ y) = F x ^^^ F y)
    (hG0 : G 0 = 0) (hGx : ∀ x y, G (x ^^^ y) = G x ^^^ G y)
    (hbase : ∀ i < n, F (2 ^ i) = G (2 ^ i)) :
    ∀ v < 2 ^ n, F v = G v := by
  induction n with
  | zero =>
    intro v hv
    have : v = 0 := by omega
    simp [this, hF0, hG0]
  | succ n ih =>
    intro v hv
    rcases Nat.lt_or_ge v (2 ^ n) with hsm | hbig
    · exact ih (fun i hi => hbase i (by omega)) v hsm
    · have hlt : v - 2 ^ n < 2 ^ n := by
        have : (2 : Nat) ^ (n + 1) = 2 ^ n + 2 ^ n := by ring
        omega
      have hdecomp : v = 2 ^ n ^^^ (v - 2 ^ n) := by
        rw [← two_pow_add_eq_xor hlt]
        omega
      rw [hdecomp, hFx, hGx, hbase n (by omega),
          ih (fun i hi => hbase i (by omega)) (v - 2 ^ n) hlt]

/-! ### mulx algebra -/

theorem mulx_zero : mulx 0 = 0 := by simp [mulx]

theorem mulx_lt {c : Nat} (h : c < 2 ^ 32) : mulx c < 2 ^ 32 := by
  unfold mulx
  split
  · exact Nat.xor_lt_two_pow (by omega) (by norm_num [POLY])
  · omega

theorem mulx_xor (x y : Nat) : mulx (x ^^^ y) = mulx x ^^^ mulx y := by
  have hxy : (x ^^^ y) % 2 = x % 2 ^^^ y % 2 := xor_mod_two x y
  unfold mulx
  rcases Nat.mod_two_eq_zero_or_one x with hx | hx <;>
    rcases Nat.mod_two_eq_zero_or_one y with hy | hy
  · rw [hx, hy] at hxy
    rw [hx, hy, hxy]
    rw [if_neg (by decide), if_neg (by decide), if_neg (by decide), Nat.xor_div_two]
  · rw [hx, hy] at hxy
    rw [hx, hy, hxy]
    rw [if_pos (by decide), if_neg (by decide), if_pos (by decide), Nat.xor_div_two,
        Nat.xor_assoc]
  · rw [hx, hy] at hxy
    rw [hx, hy, hxy]
    rw [if_pos (by decide), if_pos (by decide), if_neg (by decide), Nat.xor_div_two,
        Nat.xor_assoc, Nat.xor_comm (y / 2) POLY, ← Nat.xor_assoc]
  · rw [hx, hy] at hxy
    rw [hx, hy, hxy]
    rw [if_neg (by decide), if_pos (by decide), if_pos (by decide), Nat.xor_div_two,
        xor4, Nat.xor_self, Nat.xor_zero]

theorem mulx_ne_zero {c : Nat} (h : c < 2 ^ 32) (h0 : c ≠ 0) : mulx c ≠ 0 := by
  unfold mulx
  split
  · intro hz
    have : c / 2 = POLY := by
      have := Nat.xor_eq_zero.mp hz
      exact this
    unfold POLY at this
    omega
  · intro hz
    omega

theorem mulxn_succ_out (n b : Nat) : mulxn (n + 1) b = mulx (mulxn n b) := by
  induction n generalizing b with
  | zero => rfl
  | succ n ih => rw [mulxn, ih, mulxn]

theorem mulxn_add (m n b : Nat) : mulxn (m + n) b = mulxn m (mulxn n b) := by
  induction n generalizing b with
  | zero => rfl
  | succ n ih => rw [← Nat.add_assoc, mulxn, mulxn, ih]

theorem mulxn_zero (n : Nat) : mulxn n 0 = 0 := by
  induction n with
  | zero => rfl
  | succ n ih => rw [mulxn, mulx_zero, ih]

theorem mulxn_lt {c : Nat} (n : Nat) (h : c < 2 ^ 32) : mulxn n c < 2 ^ 32 := by
  induction n generalizing c with
  | zero => exact h
  | succ n ih => exact ih (mulx_lt h)

theorem mulxn_xor (n x y : Nat) : mulxn n (x ^^^ y) = mulxn n x ^^^ mulxn n y := by
  induction n generalizing x y with
  | zero => rfl
  | succ n ih => rw [mulxn, mulx_xor, ih, mulxn, mulxn]

theorem mulxn_ne_zero {c : Nat} (n : Nat) (h : c < 2 ^ 32) (h0 : c ≠ 0) : mulxn n c ≠ 0 := by
  induction n generalizing c with
  | zero => exact h0
  | succ n ih => exact ih (mulx_lt h) (mulx_ne_zero h h0)

/-! ### Algebra of the break-free multmodp loop -/

theorem mmF_zero_b (a : Nat) : ∀ j p, mmF a j 0 p = p := by
  intro j
  induction j with
  | zero => intro p; rfl
  | succ j ih => intro p; rw [mmF, mulx_zero, ih]; simp

theorem mmF_lt (a : Nat) : ∀ j {b p : Nat}, b < 2 ^ 32 → p < 2 ^ 32 → mmF a j b p < 2 ^ 32 := by
  intro j
  induction j with
  | zero => intro b p _ hp; exact hp
  | succ j ih =>
    intro b p hb hp
    rw [mmF]
    refine ih (mulx_lt hb) ?_
    split
    · exact Nat.xor_lt_two_pow hp hb
    · exact hp

theorem mmF_xor (a : Nat) :
    ∀ j b1 p1 b2 p2, mmF a j (b1 ^^^ b2) (p1 ^^^ p2) = mmF a j b1 p1 ^^^ mmF a j b2 p2 := by
  intro j
  induction j with
  | zero => intro _ _ _ _; rfl
  | succ j ih =>
    intro b1 p1 b2 p2
    rw [mmF, mmF, mmF, mulx_xor, ← ih]
    congr 1
    rcases htb : a.testBit j <;> simp
    exact xor4 p1 p2 b1 b2

theorem mmF_a_xor (a1 a2 : Nat) :
    ∀ j b p1 p2, mmF (a1 ^^^ a2) j b (p1 ^^^ p2) = mmF a1 j b p1 ^^^ mmF a2 j b p2 := by
  intro j
  induction j with
  | zero => intro _ _ _; rfl
  | succ j ih =>
    intro b p1 p2
    rw [mmF, mmF, mmF, ← ih]
    congr 1
    rw [Nat.testBit_xor]
    rcases h1 : a1.testBit j <;> rcases h2 : a2.testBit j <;> simp
    · rw [Nat.xor_assoc]
    · rw [Nat.xor_assoc, Nat.xor_comm p2 b, ← Nat.xor_assoc]
    · rw [xor4, Nat.xor_self, Nat.xor_zero]

theorem mmF_low_zero (a : Nat) : ∀ j, a % 2 ^ j = 0 → ∀ b p, mmF a j b p = p := by
  intro j
  induction j with
  | zero => intro _ _ _; rfl
  | succ j ih =>
    intro h b p
    have hbit : a.testBit j = false :=
      (mod_two_pow_eq_zero_iff a (j + 1)).mp h j (by omega)
    have hlow : a % 2 ^ j = 0 := by
      apply (mod_two_pow_eq_zero_iff a j).mpr
      intro i hi
      exact (mod_two_pow_eq_zero_iff a (j + 1)).mp h i (by omega)
    rw [mmF, hbit, ih hlow]
    simp

theorem mmF_split (a j b p : Nat) : mmF a j b p = p ^^^ mmF a j b 0 := by
  have h := mmF_xor a j b 0 0 p
  simp [mmF_zero_b] at h
  rw [h]
  exact Nat.xor_comm _ _

/-! ### Correspondence between the real multmodp loop and the break-free one -/

theorem mmLoop_isSome (a : Nat) :
    ∀ j b p, (mmLoop a j b p).isSome = true ↔ a % 2 ^ j ≠ 0 := by
  intro j
  induction j with
  | zero =>
    intro b p
    simp [mmLoop, Nat.mod_one]
  | succ j ih =>
    intro b p
    rw [mmLoop]
    by_cases hbit : a.testBit j = true
    · rw [if_pos hbit]
      have hne : a % 2 ^ (j + 1) ≠ 0 := by
        intro hz
        have := (mod_two_pow_eq_zero_iff a (j + 1)).mp hz j (by omega)
        rw [hbit] at this
        exact Bool.true_eq_false.mp this
      simp only [iff_true_intro hne, iff_true]
      by_cases hz : a % 2 ^ j = 0
      · rw [if_pos hz, Option.isSome_some]
      · rw [if_neg hz]
        exact (ih _ _).mpr hz
    · rw [if_neg hbit, ih]
      have hb : a.testBit j = false := Bool.not_eq_true _ |>.mp hbit
      constructor
      · intro h hz
        apply h
        apply (mod_two_pow_eq_zero_iff a j).mpr
        intro i hi
        exact (mod_two_pow_eq_zero_iff a (j + 1)).mp hz i (by omega)
      · intro h hz
        apply h
        apply (mod_two_pow_eq_zero_iff a (j + 1)).mpr
        intro i hi
        rcases Nat.lt_or_ge i j with hij | hij
        · exact (mod_two_pow_eq_zero_iff a j).mp hz i hij
        · have hij' : i = j := by omega
          rw [hij']
          exact hb

theorem mmLoop_eq_mmF (a : Nat) :
    ∀ j b p q, mmLoop a j b p = some q → q = mmF a j b p := by
  intro j
  induction j with
  | zero => intro b p q h; exact absurd h (by simp [mmLoop])
  | succ j ih =>
    intro b p q h
    rw [mmLoop] at h
    by_cases hbit : a.testBit j = true
    · rw [if_pos hbit] at h
      rw [mmF, hbit, if_pos rfl]
      by_cases hz : a % 2 ^ j = 0
      · rw [if_pos hz] at h
        rw [mmF_low_zero a j hz]
        exact ((Option.some.injEq _ _).mp h).symm
      · rw [if_neg hz] at h
        exact ih _ _ _ h
    · rw [if_neg hbit] at h
      have hb : a.testBit j = false := Bool.not_eq_true _ |>.mp hbit
      rw [mmF, hb, if_neg (by decide)]
      exact ih _ _ _ h

theorem multmodp_eq_mmF {a : Nat} (h : a % 2 ^ 32 ≠ 0) (b : Nat) :
    multmodp a b = mmF a 32 b 0 := by
  have hs : (mmLoop a 32 b 0).isSome = true := (mmLoop_isSome a 32 b 0).mpr h
  obtain ⟨q, hq⟩ := Option.isSome_iff_exists.mp hs
  rw [multmodp, hq, Option.getD_some]
  exact mmLoop_eq_mmF a 32 b 0 q hq

theorem mmLoop_none_zero : ∀ j b p, mmLoop 0 j b p = none := by
  intro j
  induction j with
  | zero => intro b p; rfl
  | succ j ih =>
    intro b p
    rw [mmLoop, Nat.zero_testBit, if_neg (by decide)]
    exact ih _ _

theorem mmF_zero_a (j b p : Nat) : mmF 0 j b p = p :=
  mmF_low_zero 0 j (Nat.zero_mod _) b p

/-! ### The representation predicate -/

theorem rep_ne_zero {a m : Nat} (h : Rep a m) : a ≠ 0 := by
  intro h0
  subst h0
  have h1 := h.2 1 (by norm_num)
  rw [mmF_zero_a] at h1
  exact mulxn_ne_zero m (by norm_num) (by norm_num) h1.symm

theorem rep_id : Rep (2 ^ 31) 0 := by
  refine ⟨by norm_num, fun c hc => ?_⟩
  rw [mmF, Nat.testBit_two_pow_self, if_pos rfl,
      mmF_low_zero _ 31 (Nat.mod_self _), Nat.zero_xor]
  rfl

theorem rep_x : Rep (2 ^ 30) 1 := by
  refine ⟨by norm_num, fun c hc => ?_⟩
  rw [mmF, show ((2 : Nat) ^ 30).testBit 31 = false by decide, if_neg (by decide),
      mmF, Nat.testBit_two_pow_self, if_pos rfl,
      mmF_low_zero _ 30 (Nat.mod_self _), Nat.zero_xor]
  rfl

theorem mmF_lin_b (a x y : Nat) : mmF a 32 (x ^^^ y) 0 = mmF a 32 x 0 ^^^ mmF a 32 y 0 := by
  have h := mmF_xor a 32 x 0 y 0
  simpa using h

theorem mmF_lin_a (x y c : Nat) : mmF (x ^^^ y) 32 c 0 = mmF x 32 c 0 ^^^ mmF y 32 c 0 := by
  have h := mmF_a_xor x y 32 c 0 0
  simpa using h

theorem mmc_basis :
    ∀ i < 32, ∀ j < 32, mmF (mulx (2 ^ i)) 32 (2 ^ j) 0 = mulx (mmF (2 ^ i) 32 (2 ^ j) 0) := by
  decide

theorem mmc {v : Nat} (hv : v < 2 ^ 32) {c : Nat} (hc : c < 2 ^ 32) :
    mmF (mulx v) 32 c 0 = mulx (mmF v 32 c 0) := by
  have inner : ∀ i, i < 32 → ∀ c, c < 2 ^ 32 →
      mmF (mulx (2 ^ i)) 32 c 0 = mulx (mmF (2 ^ i) 32 c 0) := by
    intro i hi
    refine lin_eq_on 32 (fun c => mmF (mulx (2 ^ i)) 32 c 0)
      (fun c => mulx (mmF (2 ^ i) 32 c 0)) ?_ ?_ ?_ ?_ ?_
    · show mmF (mulx (2 ^ i)) 32 0 0 = 0
      exact mmF_zero_b _ _ _
    · intro x y
      show mmF (mulx (2 ^ i)) 32 (x ^^^ y) 0 = _ ^^^ _
      exact mmF_lin_b _ x y
    · show mulx (mmF (2 ^ i) 32 0 0) = 0
      rw [mmF_zero_b, mulx_zero]
    · intro x y
      show mulx (mmF (2 ^ i) 32 (x ^^^ y) 0) = _ ^^^ _
      rw [mmF_lin_b, mulx_xor]
    · intro j hj
      exact mmc_basis i hi j hj
  refine lin_eq_on 32 (fun v => mmF (mulx v) 32 c 0) (fun v => mulx (mmF v 32 c 0))
    ?_ ?_ ?_ ?_ ?_ v hv
  · show mmF (mulx 0) 32 c 0 = 0
    rw [mulx_zero, mmF_zero_a]
  · intro x y
    show mmF (mulx (x ^^^ y)) 32 c 0 = _ ^^^ _
    rw [mulx_xor, mmF_lin_a]
  · show mulx (mmF 0 32 c 0) = 0
    rw [mmF_zero_a, mulx_zero]
  · intro x y
    show mulx (mmF (x ^^^ y) 32 c 0) = _ ^^^ _
    rw [mmF_lin_a, mulx_xor]
  · intro i hi
    exact inner i hi c hc

theorem mmc_iter {v c : Nat} (t : Nat) (hv : v < 2 ^ 32) (hc : c < 2 ^ 32) :
    mmF (mulxn t v) 32 c 0 = mulxn t (mmF v 32 c 0) := by
  induction t generalizing v with
  | zero => rfl
  | succ t ih =>
    rw [mulxn, ih (mulx_lt hv), mmc hv hc, ← mulxn]

theorem rep_mul {a m b k : Nat} (ha : Rep a m) (hb : Rep b k) :
    Rep (mmF a 32 b 0) (m + k) := by
  obtain ⟨ha32, haF⟩ := ha
  obtain ⟨hb32, hbF⟩ := hb
  refine ⟨mmF_lt a 32 hb32 (by norm_num), fun c hc => ?_⟩
  rw [haF b hb32, mmc_iter m hb32 hc, hbF c hc, ← mulxn_add]

theorem rep_x2n : ∀ k, Rep (x2n_table k) (2 ^ k) := by
  intro k
  induction k with
  | zero => exact rep_x
  | succ k ih =>
    have hne : x2n_table k % 2 ^ 32 ≠ 0 := by
      rw [Nat.mod_eq_of_lt ih.1]
      exact rep_ne_zero ih
    have heq : x2n_table (k + 1) = mmF (x2n_table k) 32 (x2n_table k) 0 := by
      rw [x2n_table, multmodp_eq_mmF hne]
    rw [heq, pow_succ, Nat.mul_two]
    exact rep_mul ih ih

theorem x2n_period : x2n_table 32 = x2n_table 0 := by decide

theorem x2n_table_add_32 : ∀ k, x2n_table (k + 32) = x2n_table k := by
  intro k
  induction k with
  | zero => exact x2n_period
  | succ k ih =>
    have h1 : k + 1 + 32 = (k + 32) + 1 := by omega
    rw [h1, x2n_table, ih, x2n_table]

theorem x2n_table_mod : ∀ k, x2n_table (k % 32) = x2n_table k := by
  intro k
  induction k using Nat.strong_induction_on with
  | _ k ih =>
    rcases Nat.lt_or_ge k 32 with hk | hk
    · rw [Nat.mod_eq_of_lt hk]
    · have h1 : k = (k - 32) + 32 := by omega
      rw [h1, x2n_table_add_32, Nat.add_mod_right]
      exact ih (k - 32) (by omega)

theorem rep_x2n_mod (k : Nat) : Rep (x2n_table (k % 32)) (2 ^ k) := by
  rw [x2n_table_mod]
  exact rep_x2n k

theorem x2nAux_rep : ∀ n k p m, Rep p m → Rep (x2nAux n k p) (m + 2 ^ k * n) := by
  intro n
  induction n using Nat.strong_induction_on with
  | _ n ih =>
    intro k p m hp
    by_cases hn : n = 0
    · subst hn
      rw [x2nAux, if_pos rfl]
      simpa using hp
    · rw [x2nAux, if_neg hn]
      have hstep : Rep (if n % 2 = 1 then multmodp (x2n_table (k % 32)) p else p)
          (m + 2 ^ k * (n % 2)) := by
        by_cases hodd : n % 2 = 1
        · rw [if_pos hodd, hodd]
          have ht := rep_x2n_mod k
          have hne : x2n_table (k % 32) % 2 ^ 32 ≠ 0 := by
            rw [Nat.mod_eq_of_lt ht.1]
            exact rep_ne_zero ht
          rw [multmodp_eq_mmF hne]
          have := rep_mul ht hp
          rw [Nat.mul_one, Nat.add_comm]
          exact this
        · rw [if_neg hodd]
          have h0 : n % 2 = 0 := by omega
          rw [h0]
          simpa using hp
      have := ih (n / 2) (Nat.div_lt_self (Nat.pos_of_ne_zero hn) (by norm_num))
        (k + 1) _ _ hstep
      have harith : m + 2 ^ k * (n % 2) + 2 ^ (k + 1) * (n / 2) = m + 2 ^ k * n := by
        have hn2 : n % 2 + 2 * (n / 2) = n := by omega
        rw [pow_succ]
        calc m + 2 ^ k * (n % 2) + 2 ^ k * 2 * (n / 2)
            = m + 2 ^ k * (n % 2 + 2 * (n / 2)) := by ring
          _ = m + 2 ^ k * n := by rw [hn2]
      rwa [harith] at this

theorem x2nmodp_rep (n k : Nat) : Rep (x2nmodp n k) (2 ^ k * n) := by
  have := x2nAux_rep n k (2 ^ 31) 0 rep_id
  simpa using this

theorem x2nmodp_lt (n k : Nat) : x2nmodp n k < 2 ^ 32 := (x2nmodp_rep n k).1

theorem x2nmodp_ne_zero (n k : Nat) : x2nmodp n k ≠ 0 := rep_ne_zero (x2nmodp_rep n k)

/-- The heart of the combine operation: multiplying a 32-bit CRC residue by
x^(8 n) mod p(x) through multmodp and x2nmodp is the same linear map as n
zero-byte CRC steps. -/
theorem multmodp_x2nmodp (n : Nat) {c : Nat} (hc : c < 2 ^ 32) :
    multmodp (x2nmodp n 3) c = mulxn (8 * n) c := by
  have hr := x2nmodp_rep n 3
  have hne : x2nmodp n 3 % 2 ^ 32 ≠ 0 := by
    rw [Nat.mod_eq_of_lt hr.1]
    exact rep_ne_zero hr
  rw [multmodp_eq_mmF hne, hr.2 c hc]
  norm_num

/-! ### The plain byte loop -/

theorem crc_table_lt {x : Nat} (h : x < 2 ^ 32) : crc_table x < 2 ^ 32 := mulxn_lt 8 h

theorem and255_lt (x : Nat) : x &&& 255 < 256 := by
  have h : x &&& 255 ≤ 255 := Nat.and_le_right
  omega

theorem wstep_zero : wstep 0 = 0 := by
  simp [wstep, crc_table, mulxn, mulx_zero]

theorem wstep_xor (x y : Nat) : wstep (x ^^^ y) = wstep x ^^^ wstep y := by
  rw [wstep, wstep, wstep, xor_shiftRight, Nat.and_xor_distrib_right, crc_table, mulxn_xor,
      ← crc_table, ← crc_table]
  exact xor4 _ _ _ _

theorem wstep_basis : ∀ i < 32, wstep (2 ^ i) = mulxn 8 (2 ^ i) := by decide

theorem wstep_eq {c : Nat} (hc : c < 2 ^ 32) : wstep c = mulxn 8 c :=
  lin_eq_on 32 wstep (mulxn 8) wstep_zero wstep_xor (mulxn_zero 8) (mulxn_xor 8) wstep_basis c hc

theorem byteStep_eq_wstep {b : Nat} (hb : b < 256) (c : Nat) :
    byteStep c b = wstep (c ^^^ b) := by
  rw [byteStep, wstep, xor_shiftRight]
  have hb8 : b >>> 8 = 0 := by
    rw [Nat.shiftRight_eq_div_pow]
    exact Nat.div_eq_of_lt (by omega)
  rw [hb8, Nat.xor_zero]

theorem byteStep_lt {c : Nat} (h : c < 2 ^ 32) (b : Nat) : byteStep c b < 2 ^ 32 := by
  rw [byteStep]
  have h1 : c >>> 8 < 2 ^ 32 := by
    rw [Nat.shiftRight_eq_div_pow]
    have := Nat.div_le_self c (2 ^ 8)
    omega
  refine Nat.xor_lt_two_pow h1 (crc_table_lt ?_)
  have := and255_lt (c ^^^ b)
  omega

theorem run_cons (c b : Nat) (bs : List Nat) : run c (b :: bs) = run (byteStep c b) bs := rfl

theorem run_append (c : Nat) (xs ys : List Nat) : run c (xs ++ ys) = run (run c xs) ys := by
  simp [run, List.foldl_append]

theorem run_lt {c : Nat} (h : c < 2 ^ 32) (bs : List Nat) : run c bs < 2 ^ 32 := by
  induction bs generalizing c with
  | nil => exact h
  | cons b bs ih => exact ih (byteStep_lt h b)

theorem byteStep_split {c b : Nat} (hc : c < 2 ^ 32) (hb : b < 256) :
    byteStep c b = mulxn 8 c ^^^ byteStep 0 b := by
  rw [byteStep_eq_wstep hb c, wstep_xor, wstep_eq hc, byteStep_eq_wstep hb 0, Nat.zero_xor]

theorem run_decomp : ∀ bs : List Nat, allBytes bs → ∀ c : Nat, c < 2 ^ 32 →
    run c bs = mulxn (8 * bs.length) c ^^^ run 0 bs := by
  intro bs
  induction bs with
  | nil =>
    intro _ c hc
    simp [run, mulxn]
  | cons b bs ih =>
    intro hab c hc
    have hb : b < 256 := hab b (List.mem_cons_self _ _)
    have hab' : allBytes bs := fun x hx => hab x (List.mem_cons_of_mem _ hx)
    rw [run_cons, ih hab' _ (byteStep_lt hc b), byteStep_split hc hb, mulxn_xor, ← mulxn_add,
        run_cons 0 b bs, ih hab' _ (byteStep_lt (by norm_num) b)]
    rw [List.length_cons, show 8 * (bs.length + 1) = 8 * bs.length + 8 from by ring]
    exact Nat.xor_assoc _ _ _

/-- C9: calling crc32_z, and hence crc32, with an absent input buffer is not
an error: it returns 0, the identity seed value of the CRC (the CRC of the
empty string under seed 0), for every initial crc value, without reading any
data; the length argument of the C call is irrelevant since the null check
precedes every use of it. -/
theorem crc32_null_returns_seed :
    (∀ addr crc, crc32_z addr crc none = 0) ∧
    (∀ addr crc, crc32 addr crc none = 0) ∧
    crc32_bytes 0 [] = 0 :=
  ⟨fun _ _ => rfl, fun _ _ => rfl, rfl⟩

/-- C10: the multmodp loop terminates (reaches its break) for every nonzero
32-bit first argument; x2nmodp always returns a nonzero 32-bit polynomial, so
the multmodp call inside crc32_combine64 (and crc32_combine) terminates for
every input; and the hypothesis is necessary: with first argument 0 the loop
never exits, whatever the iteration bound, so crc32_combine_op with op = 0
does not terminate. -/
theorem multmodp_termination :
    (∀ a b, a < 2 ^ 32 → a ≠ 0 → (mmLoop a 32 b 0).isSome = true) ∧
    (∀ n k, x2nmodp n k ≠ 0 ∧ x2nmodp n k < 2 ^ 32) ∧
    (∀ len2 crc1, (mmLoop (x2nmodp len2 3) 32 (crc1 % 2 ^ 32) 0).isSome = true) ∧
    (∀ j b p, mmLoop 0 j b p = none) := by
  have hterm : ∀ a b, a < 2 ^ 32 → a ≠ 0 → (mmLoop a 32 b 0).isSome = true := by
    intro a b ha h0
    exact (mmLoop_isSome a 32 b 0).mpr (by rwa [Nat.mod_eq_of_lt ha])
  refine ⟨hterm, fun n k => ⟨x2nmodp_ne_zero n k, x2nmodp_lt n k⟩, ?_, mmLoop_none_zero⟩
  intro len2 crc1
  exact hterm _ _ (x2nmodp_lt len2 3) (x2nmodp_ne_zero len2 3)

/-- Witness for multmodp_termination at concrete inputs. -/
theorem multmodp_termination_witness :
    (mmLoop 5 32 7 0).isSome = true ∧ mmLoop 0 32 7 0 = none :=
  ⟨multmodp_termination.1 5 7 (by norm_num) (by norm_num),
   multmodp_termination.2.2.2 32 7 0⟩

theorem xor_shuffle_combine (p q r f : Nat) :
    (p ^^^ q) ^^^ ((q ^^^ r) ^^^ f) = (p ^^^ r) ^^^ f := by
  rw [Nat.xor_assoc p q, ← Nat.xor_assoc q, ← Nat.xor_assoc q, Nat.xor_self, Nat.zero_xor,
      ← Nat.xor_assoc]

/-- The combination law at the level of the plain byte loop. -/
theorem crc32_combine_bytes (a b : List Nat) (_ha : allBytes a) (hb : allBytes b) :
    crc32_combine64 (crc32_bytes 0 a) (crc32_bytes 0 b) b.length = crc32_bytes 0 (a ++ b) := by
  have hF : (0xffffffff : Nat) < 2 ^ 32 := by norm_num
  have hA : run 0xffffffff a < 2 ^ 32 := run_lt hF a
  have hB : run 0xffffffff b < 2 ^ 32 := run_lt hF b
  have hbytesa : crc32_bytes 0 a = run 0xffffffff a ^^^ 0xffffffff := by
    rw [crc32_bytes]
    norm_num
  have hbytesb : crc32_bytes 0 b = run 0xffffffff b ^^^ 0xffffffff := by
    rw [crc32_bytes]
    norm_num
  have hbytesab : crc32_bytes 0 (a ++ b) = run (run 0xffffffff a) b ^^^ 0xffffffff := by
    rw [crc32_bytes, run_append]
    norm_num
  rw [hbytesa, hbytesb, hbytesab, crc32_combine64,
      Nat.mod_eq_of_lt (Nat.xor_lt_two_pow hA hF), Nat.mod_eq_of_lt (Nat.xor_lt_two_pow hB hF),
      multmodp_x2nmodp b.length (Nat.xor_lt_two_pow hA hF), mulxn_xor,
      run_decomp b hb _ hA, run_decomp b hb _ hF]
  exact xor_shuffle_combine _ _ _ _

/-! ### Little-endian words -/

theorem allBytes_cons_head {b : Nat} {bs : List Nat} (h : allBytes (b :: bs)) : b < 256 :=
  h b (List.mem_cons_self _ _)

theorem allBytes_cons_tail {b : Nat} {bs : List Nat} (h : allBytes (b :: bs)) : allBytes bs :=
  fun x hx => h x (List.mem_cons_of_mem _ hx)

theorem and255_eq_mod (x : Nat) : x &&& 255 = x % 256 := by
  have h := Nat.and_pow_two_sub_one_eq_mod x 8
  norm_num at h
  exact h

theorem wordOf_lt : ∀ bs : List Nat, allBytes bs → wordOf bs < 2 ^ (8 * bs.length) := by
  intro bs
  induction bs with
  | nil => intro _; simp [wordOf]
  | cons b bs ih =>
    intro hab
    have hb : b < 256 := allBytes_cons_head hab
    have hw := ih (allBytes_cons_tail hab)
    rw [wordOf, List.length_cons]
    have hpow : (2 : Nat) ^ (8 * (bs.length + 1)) = 256 * 2 ^ (8 * bs.length) := by
      rw [show 8 * (bs.length + 1) = 8 + 8 * bs.length from by ring, pow_add]
      norm_num
    have hmul := Nat.mul_le_mul_left 256 (Nat.succ_le_of_lt hw)
    omega

theorem wordOf_and255 : ∀ bs : List Nat, allBytes bs → wordOf bs &&& 255 = bs.headD 0 := by
  intro bs
  induction bs with
  | nil => intro _; simp [wordOf]
  | cons b bs _ =>
    intro hab
    have hb : b < 256 := allBytes_cons_head hab
    rw [wordOf, and255_eq_mod, Nat.add_mul_mod_self_left, Nat.mod_eq_of_lt hb]
    rfl

theorem wordOf_shiftRight8 {b : Nat} (bs : List Nat) (hb : b < 256) :
    wordOf (b :: bs) >>> 8 = wordOf bs := by
  rw [wordOf, Nat.shiftRight_eq_div_pow]
  show (b + 256 * wordOf bs) / 256 = wordOf bs
  rw [Nat.add_mul_div_left _ _ (by norm_num : (0 : Nat) < 256), Nat.div_eq_of_lt hb,
      Nat.zero_add]

theorem wordOf_shift_drop : ∀ (k : Nat) (bs : List Nat), allBytes bs →
    wordOf bs >>> (8 * k) = wordOf (bs.drop k) := by
  intro k
  induction k with
  | zero => intro bs _; simp
  | succ k ih =>
    intro bs hab
    rcases bs with _ | ⟨b, bs⟩
    · simp [wordOf]
    · rw [show 8 * (k + 1) = 8 + 8 * k from by ring, Nat.shiftRight_add,
          wordOf_shiftRight8 bs (allBytes_cons_head hab), ih bs (allBytes_cons_tail hab)]
      rfl

theorem wstepn_word : ∀ bs : List Nat, allBytes bs → ∀ x : Nat,
    wstepn bs.length (x ^^^ wordOf bs) = run x bs := by
  intro bs
  induction bs with
  | nil => intro _ x; simp [wordOf, wstepn, run]
  | cons b bs ih =>
    intro hab x
    have hb : b < 256 := allBytes_cons_head hab
    have hab' : allBytes bs := allBytes_cons_tail hab
    have hkey : wstep (x ^^^ wordOf (b :: bs)) = byteStep x b ^^^ wordOf bs := by
      have h256 : (256 : Nat) = 2 ^ 8 := by norm_num
      rw [wordOf, h256, add_eq_xor_of_lt (wordOf bs) (by omega), wstep]
      have hb8 : b >>> 8 = 0 := by
        rw [Nat.shiftRight_eq_div_pow]
        exact Nat.div_eq_of_lt (by omega)
      have hshift : (x ^^^ (b ^^^ 2 ^ 8 * wordOf bs)) >>> 8 = (x ^^^ b) >>> 8 ^^^ wordOf bs := by
        rw [xor_shiftRight, xor_shiftRight, xor_shiftRight, ← Nat.xor_assoc]
        congr 1
        rw [Nat.shiftRight_eq_div_pow, Nat.mul_div_cancel_left _ (Nat.two_pow_pos 8)]
      have hand : (x ^^^ (b ^^^ 2 ^ 8 * wordOf bs)) &&& 255 = (x ^^^ b) &&& 255 := by
        rw [← Nat.xor_assoc, Nat.and_xor_distrib_right, and255_eq_mod (2 ^ 8 * wordOf bs)]
        show _ ^^^ (256 * wordOf bs) % 256 = _
        rw [Nat.mul_mod_right, Nat.xor_zero]
      rw [hshift, hand, byteStep]
      have hxb : (x ^^^ b) >>> 8 = x >>> 8 := by
        rw [xor_shiftRight, hb8, Nat.xor_zero]
      rw [hxb, Nat.xor_assoc, Nat.xor_comm (wordOf bs), ← Nat.xor_assoc]
    rw [List.length_cons, wstepn, hkey, ih hab' (byteStep x b), run_cons]

theorem crc_word_chunk {bs : List Nat} (h8 : bs.length = 8) (hab : allBytes bs) (x : Nat) :
    crc_word (x ^^^ wordOf bs) = run x bs := by
  rw [crc_word, ← h8, wstepn_word bs hab x]

theorem byteStep_zero_byte {b : Nat} (hb : b < 256) : byteStep 0 b = mulxn 8 b := by
  rw [byteStep, Nat.zero_xor, and255_eq_mod, Nat.mod_eq_of_lt hb]
  show 0 ^^^ crc_table b = _
  rw [Nat.zero_xor, crc_table]

theorem run_zero_cons (b : Nat) (bs : List Nat) (hab : allBytes bs) :
    run 0 (b :: bs) = mulxn (8 * bs.length) (byteStep 0 b) ^^^ run 0 bs := by
  rw [run_cons, run_decomp bs hab _ (byteStep_lt (by norm_num) b)]

theorem braidStep_list (bs : List Nat) (h8 : bs.length = 8) (hab : allBytes bs) :
    braidStep (wordOf bs) = mulxn 256 (crc_word (wordOf bs)) := by
  rcases bs with _ | ⟨b0, bs⟩
  · simp at h8
  rcases bs with _ | ⟨b1, bs⟩
  · simp at h8
  rcases bs with _ | ⟨b2, bs⟩
  · simp at h8
  rcases bs with _ | ⟨b3, bs⟩
  · simp at h8
  rcases bs with _ | ⟨b4, bs⟩
  · simp at h8
  rcases bs with _ | ⟨b5, bs⟩
  · simp at h8
  rcases bs with _ | ⟨b6, bs⟩
  · simp at h8
  rcases bs with _ | ⟨b7, bs⟩
  · simp at h8
  rcases bs with _ | ⟨b8, bs⟩
  swap
  · simp at h8
  have hab1 : allBytes [b1, b2, b3, b4, b5, b6, b7] := allBytes_cons_tail hab
  have hab2 : allBytes [b2, b3, b4, b5, b6, b7] := allBytes_cons_tail hab1
  have hab3 : allBytes [b3, b4, b5, b6, b7] := allBytes_cons_tail hab2
  have hab4 : allBytes [b4, b5, b6, b7] := allBytes_cons_tail hab3
  have hab5 : allBytes [b5, b6, b7] := allBytes_cons_tail hab4
  have hab6 : allBytes [b6, b7] := allBytes_cons_tail hab5
  have hab7 : allBytes [b7] := allBytes_cons_tail hab6
  have e0 : wordOf [b0, b1, b2, b3, b4, b5, b6, b7] &&& 255 = b0 := by
    rw [wordOf_and255 _ hab]
    rfl
  have e1 : (wordOf [b0, b1, b2, b3, b4, b5, b6, b7] >>> 8) &&& 255 = b1 := by
    have h := wordOf_shift_drop 1 _ hab
    simp at h
    rw [h, wordOf_and255 _ hab1]
    rfl
  have e2 : (wordOf [b0, b1, b2, b3, b4, b5, b6, b7] >>> 16) &&& 255 = b2 := by
    have h := wordOf_shift_drop 2 _ hab
    simp at h
    rw [h, wordOf_and255 _ hab2]
    rfl
  have e3 : (wordOf [b0, b1, b2, b3, b4, b5, b6, b7] >>> 24) &&& 255 = b3 := by
    have h := wordOf_shift_drop 3 _ hab
    simp at h
    rw [h, wordOf_and255 _ hab3]
    rfl
  have e4 : (wordOf [b0, b1, b2, b3, b4, b5, b6, b7] >>> 32) &&& 255 = b4 := by
    have h := wordOf_shift_drop 4 _ hab
    simp at h
    rw [h, wordOf_and255 _ hab4]
    rfl
  have e5 : (wordOf [b0, b1, b2, b3, b4, b5, b6, b7] >>> 40) &&& 255 = b5 := by
    have h := wordOf_shift_drop 5 _ hab
    simp at h
    rw [h, wordOf_and255 _ hab5]
    rfl
  have e6 : (wordOf [b0, b1, b2, b3, b4, b5, b6, b7] >>> 48) &&& 255 = b6 := by
    have h := wordOf_shift_drop 6 _ hab
    simp at h
    rw [h, wordOf_and255 _ hab6]
    rfl
  have e7 : (wordOf [b0, b1, b2, b3, b4, b5, b6, b7] >>> 56) &&& 255 = b7 := by
    have h := wordOf_shift_drop 7 _ hab
    simp at h
    rw [h, wordOf_and255 _ hab7]
    rfl
  rw [braidStep]
  simp only [List.range_succ, List.range_zero, List.foldl_append, List.foldl_cons,
    List.foldl_nil, Nat.zero_xor]
  norm_num
  rw [e0, e1, e2, e3, e4, e5, e6, e7]
  have hb0 : b0 < 256 := allBytes_cons_head hab
  have hb1 : b1 < 256 := allBytes_cons_head hab1
  have hb2 : b2 < 256 := allBytes_cons_head hab2
  have hb3 : b3 < 256 := allBytes_cons_head hab3
  have hb4 : b4 < 256 := allBytes_cons_head hab4
  have hb5 : b5 < 256 := allBytes_cons_head hab5
  have hb6 : b6 < 256 := allBytes_cons_head hab6
  have hb7 : b7 < 256 := allBytes_cons_head hab7
  have habnil : allBytes ([] : List Nat) := by
    intro x hx
    simp at hx
  have hw : crc_word (wordOf [b0, b1, b2, b3, b4, b5, b6, b7]) =
      run 0 [b0, b1, b2, b3, b4, b5, b6, b7] := by
    have h := crc_word_chunk (show [b0, b1, b2, b3, b4, b5, b6, b7].length = 8 from rfl) hab 0
    rw [Nat.zero_xor] at h
    exact h
  rw [hw, run_zero_cons b0 _ hab1, run_zero_cons b1 _ hab2, run_zero_cons b2 _ hab3,
      run_zero_cons b3 _ hab4, run_zero_cons b4 _ hab5, run_zero_cons b5 _ hab6,
      run_zero_cons b6 _ hab7, run_zero_cons b7 _ habnil]
  simp only [List.length_cons, List.length_nil]
  norm_num
  rw [byteStep_zero_byte hb0, byteStep_zero_byte hb1, byteStep_zero_byte hb2,
      byteStep_zero_byte hb3, byteStep_zero_byte hb4, byteStep_zero_byte hb5,
      byteStep_zero_byte hb6, byteStep_zero_byte hb7]
  show _ = mulxn 256 _
  simp only [run, List.foldl_nil, Nat.xor_zero, mulxn_xor, ← mulxn_add, crc_braid_table]
  norm_num [Nat.xor_assoc]

theorem flatten_len8 : ∀ bss : List (List Nat), (∀ l ∈ bss, l.length = 8) →
    bss.flatten.length = 8 * bss.length := by
  intro bss
  induction bss with
  | nil => intro _; simp
  | cons l bss ih =>
    intro h
    rw [List.flatten_cons, List.length_append, h l (List.mem_cons_self _ _),
        ih (fun x hx => h x (List.mem_cons_of_mem _ hx)), List.length_cons]
    ring

theorem allBytes_flatten : ∀ bss : List (List Nat), (∀ l ∈ bss, allBytes l) →
    allBytes bss.flatten := by
  intro bss
  induction bss with
  | nil => intro _ x hx; simp at hx
  | cons l bss ih =>
    intro h x hx
    rw [List.flatten_cons, List.mem_append] at hx
    rcases hx with hx | hx
    · exact h l (List.mem_cons_self _ _) x hx
    · exact ih (fun y hy => h y (List.mem_cons_of_mem _ hy)) x hx

theorem braidMerge_spec : ∀ (bss : List (List Nat)) (cs : List Nat) (acc : Nat),
    cs.length = bss.length →
    (∀ l ∈ bss, l.length = 8 ∧ allBytes l) →
    (∀ c ∈ cs, c < 2 ^ 32) → acc < 2 ^ 32 →
    braidMerge cs (bss.map wordOf) acc =
      laneSum cs (8 * bss.length) ^^^ (mulxn (64 * bss.length) acc ^^^ run 0 bss.flatten) := by
  intro bss
  induction bss with
  | nil =>
    intro cs acc hlen _ _ _
    have hcs : cs = [] := List.length_eq_zero.mp (by simpa using hlen)
    subst hcs
    simp [braidMerge, laneSum, run, mulxn]
  | cons l bss ih =>
    intro cs acc hlen hwf hcs hacc
    rcases cs with _ | ⟨c, cs⟩
    · simp at hlen
    have hl8 : l.length = 8 := (hwf l (List.mem_cons_self _ _)).1
    have hlb : allBytes l := (hwf l (List.mem_cons_self _ _)).2
    have hc : c < 2 ^ 32 := hcs c (List.mem_cons_self _ _)
    have hcs' : ∀ x ∈ cs, x < 2 ^ 32 := fun x hx => hcs x (List.mem_cons_of_mem _ hx)
    have hwf' : ∀ x ∈ bss, x.length = 8 ∧ allBytes x :=
      fun x hx => hwf x (List.mem_cons_of_mem _ hx)
    have hlen' : cs.length = bss.length := by simpa using hlen
    have hflen : bss.flatten.length = 8 * bss.length :=
      flatten_len8 bss (fun x hx => (hwf' x hx).1)
    have hfb : allBytes bss.flatten := allBytes_flatten bss (fun x hx => (hwf' x hx).2)
    have hstep : braidMerge (c :: cs) ((l :: bss).map wordOf) acc =
        braidMerge cs (bss.map wordOf) (crc_word (c ^^^ wordOf l ^^^ acc)) := rfl
    have hacc1 : crc_word (c ^^^ wordOf l ^^^ acc) = run (c ^^^ acc) l := by
      rw [Nat.xor_assoc, Nat.xor_comm (wordOf l) acc, ← Nat.xor_assoc,
          crc_word_chunk hl8 hlb (c ^^^ acc)]
    have hacclt : run (c ^^^ acc) l < 2 ^ 32 := run_lt (Nat.xor_lt_two_pow hc hacc) l
    rw [hstep, hacc1, ih cs _ hlen' hwf' hcs' hacclt,
        run_decomp l hlb _ (Nat.xor_lt_two_pow hc hacc), hl8,
        List.flatten_cons, run_append,
        run_decomp bss.flatten hfb _ (run_lt (by norm_num) l), hflen]
    rw [List.length_cons, laneSum]
    rw [show 8 * (bss.length + 1) - 8 = 8 * bss.length from by omega,
        show 8 * (8 * (bss.length + 1)) = 64 * bss.length + 64 from by ring,
        show 64 * (bss.length + 1) = 64 * bss.length + 64 from by ring,
        show 8 * (8 * bss.length) = 64 * bss.length from by ring]
    simp only [mulxn_xor, ← mulxn_add]
    norm_num
    simp [Nat.xor_assoc, Nat.xor_comm, xor_left_comm]

theorem bytesOfWordK_length : ∀ k w, (bytesOfWordK k w).length = k := by
  intro k
  induction k with
  | zero => intro w; rfl
  | succ k ih => intro w; rw [bytesOfWordK, List.length_cons, ih]

theorem bytesOfWordK_allBytes : ∀ k w, allBytes (bytesOfWordK k w) := by
  intro k
  induction k with
  | zero => intro w x hx; simp [bytesOfWordK] at hx
  | succ k ih =>
    intro w x hx
    rw [bytesOfWordK] at hx
    rcases List.mem_cons.mp hx with h | h
    · rw [h]; exact and255_lt w
    · exact ih (w >>> 8) x h

theorem wordOf_bytesOfWordK : ∀ k w, wordOf (bytesOfWordK k w) = w % 2 ^ (8 * k) := by
  intro k
  induction k with
  | zero => intro w; simp [bytesOfWordK, wordOf, Nat.mod_one]
  | succ k ih =>
    intro w
    rw [bytesOfWordK, wordOf, ih, and255_eq_mod, Nat.shiftRight_eq_div_pow,
        show (2 : Nat) ^ 8 = 256 from by norm_num,
        show 8 * (k + 1) = 8 + 8 * k from by ring, pow_add,
        show (2 : Nat) ^ 8 = 256 from by norm_num, Nat.mod_mul]

theorem braidStep_spec {d : Nat} (hd : d < 2 ^ 64) : braidStep d = mulxn 256 (crc_word d) := by
  have h := braidStep_list (bytesOfWordK 8 d) (bytesOfWordK_length 8 d) (bytesOfWordK_allBytes 8 d)
  rw [wordOf_bytesOfWordK, show 8 * 8 = 64 from by norm_num, Nat.mod_eq_of_lt hd] at h
  exact h

theorem braidStep_lane {c : Nat} (hc : c < 2 ^ 32) {l : List Nat} (h8 : l.length = 8)
    (hlb : allBytes l) : braidStep (c ^^^ wordOf l) = mulxn 256 (run c l) := by
  have hw : wordOf l < 2 ^ 64 := by
    have h := wordOf_lt l hlb
    rw [h8] at h
    norm_num at h
    exact h
  have hd : c ^^^ wordOf l < 2 ^ 64 := Nat.xor_lt_two_pow (by norm_num at hc ⊢; omega) hw
  rw [braidStep_spec hd, crc_word_chunk h8 hlb c]

theorem run0_append (xs ys : List Nat) (hy : allBytes ys) :
    run 0 (xs ++ ys) = mulxn (8 * ys.length) (run 0 xs) ^^^ run 0 ys := by
  rw [run_append, run_decomp ys hy _ (run_lt (by norm_num) xs)]

theorem laneSum_braid_step : ∀ (bls : List (List Nat)) (cs : List Nat) (R S : Nat),
    cs.length = bls.length →
    (∀ l ∈ bls, l.length = 8 ∧ allBytes l) →
    8 * bls.length ≤ R →
    8 * R + 320 = S + 64 * bls.length →
    (∀ c ∈ cs, c < 2 ^ 32) →
    laneSum (List.zipWith (fun c w => braidStep (c ^^^ w)) cs (bls.map wordOf)) R =
      laneSum cs (R + 40) ^^^ mulxn S (run 0 bls.flatten) := by
  intro bls
  induction bls with
  | nil =>
    intro cs R S hlen _ _ _ _
    have hcs : cs = [] := List.length_eq_zero.mp (by simpa using hlen)
    subst hcs
    simp [laneSum, run, mulxn_zero]
  | cons l bls ih =>
    intro cs R S hlen hwf hR hS hcs
    rcases cs with _ | ⟨c, cs⟩
    · simp at hlen
    obtain ⟨R1, rfl⟩ : ∃ R1, R = R1 + 8 := ⟨R - 8, by simp at hR; omega⟩
    have hl8 : l.length = 8 := (hwf l (List.mem_cons_self _ _)).1
    have hlb : allBytes l := (hwf l (List.mem_cons_self _ _)).2
    have hc : c < 2 ^ 32 := hcs c (List.mem_cons_self _ _)
    have hcs' : ∀ x ∈ cs, x < 2 ^ 32 := fun x hx => hcs x (List.mem_cons_of_mem _ hx)
    have hwf' : ∀ x ∈ bls, x.length = 8 ∧ allBytes x :=
      fun x hx => hwf x (List.mem_cons_of_mem _ hx)
    have hlen' : cs.length = bls.length := by simpa using hlen
    have hflen : bls.flatten.length = 8 * bls.length :=
      flatten_len8 bls (fun x hx => (hwf' x hx).1)
    have hfb : allBytes bls.flatten := allBytes_flatten bls (fun x hx => (hwf' x hx).2)
    have hlenb : (l :: bls).length = bls.length + 1 := rfl
    rw [hlenb] at hR hS
    rw [List.map_cons, List.zipWith_cons_cons, laneSum, Nat.add_sub_cancel,
        ih cs R1 S hlen' hwf' (by omega) (by omega) hcs',
        braidStep_lane hc hl8 hlb, run_decomp l hlb c hc, hl8,
        List.flatten_cons, run0_append l bls.flatten hfb, hflen, laneSum]
    simp only [mulxn_xor, ← mulxn_add]
    rw [show 8 * (R1 + 8) + (256 + 8 * 8) = 8 * (R1 + 8 + 40) from by ring,
        show R1 + 8 + 40 - 8 = R1 + 40 from by omega,
        show S + 8 * (8 * bls.length) = 8 * (R1 + 8) + 256 from by omega]
    simp [Nat.xor_assoc, Nat.xor_comm, xor_left_comm]

theorem zipWith_braid_bound : ∀ (cs : List Nat) (bls : List (List Nat)),
    (∀ c ∈ cs, c < 2 ^ 32) → (∀ l ∈ bls, l.length = 8 ∧ allBytes l) →
    ∀ x ∈ List.zipWith (fun c w => braidStep (c ^^^ w)) cs (bls.map wordOf), x < 2 ^ 32 := by
  intro cs
  induction cs with
  | nil => intro bls _ _ x hx; simp at hx
  | cons c cs ih =>
    intro bls hcs hwf x hx
    rcases bls with _ | ⟨l, bls⟩
    · simp at hx
    rw [List.map_cons, List.zipWith_cons_cons] at hx
    rcases List.mem_cons.mp hx with h | h
    · rw [h, braidStep_lane (hcs c (List.mem_cons_self _ _)) (hwf l (List.mem_cons_self _ _)).1
        (hwf l (List.mem_cons_self _ _)).2]
      exact mulxn_lt 256 (run_lt (hcs c (List.mem_cons_self _ _)) l)
    · exact ih bls (fun y hy => hcs y (List.mem_cons_of_mem _ hy))
        (fun y hy => hwf y (List.mem_cons_of_mem _ hy)) x h

theorem braidGo_spec : ∀ (blks : Nat) (bss : List (List Nat)) (cs : List Nat),
    bss.length = 5 * (blks + 1) →
    cs.length = 5 →
    (∀ l ∈ bss, l.length = 8 ∧ allBytes l) →
    (∀ c ∈ cs, c < 2 ^ 32) →
    braidGo cs (bss.map wordOf) = laneSum cs (8 * bss.length) ^^^ run 0 bss.flatten := by
  intro blks
  induction blks with
  | zero =>
    intro bss cs hlen hcs5 hwf hcs
    rw [braidGo, if_pos (by simp [hlen])]
    rw [braidMerge_spec bss cs 0 (by rw [hcs5, hlen]) hwf hcs (by norm_num)]
    rw [mulxn_zero, Nat.zero_xor]
  | succ blks ih =>
    intro bss cs hlen hcs5 hwf hcs
    rw [braidGo, if_neg (by simp [hlen])]
    rw [← List.map_take, ← List.map_drop]
    have htlen : (bss.take 5).length = 5 := by
      rw [List.length_take, hlen]
      omega
    have hdlen : (bss.drop 5).length = 5 * (blks + 1) := by
      rw [List.length_drop, hlen]
      omega
    have hwft : ∀ l ∈ bss.take 5, l.length = 8 ∧ allBytes l :=
      fun l hl => hwf l (List.mem_of_mem_take hl)
    have hwfd : ∀ l ∈ bss.drop 5, l.length = 8 ∧ allBytes l :=
      fun l hl => hwf l (List.mem_of_mem_drop hl)
    have hzlen : (List.zipWith (fun c w => braidStep (c ^^^ w)) cs
        ((bss.take 5).map wordOf)).length = 5 := by
      rw [List.length_zipWith, hcs5, List.length_map, htlen]
      omega
    rw [ih (bss.drop 5) _ hdlen hzlen hwfd (zipWith_braid_bound cs (bss.take 5) hcs hwft)]
    rw [laneSum_braid_step (bss.take 5) cs (8 * (bss.drop 5).length)
        (64 * (bss.drop 5).length) (by rw [hcs5, htlen]) hwft
        (by rw [htlen, hdlen]; omega) (by rw [htlen]; ring) hcs]
    rw [show (8 : Nat) * (bss.drop 5).length + 40 = 8 * bss.length from by
      rw [hdlen, hlen]; ring]
    have hsplit : bss.flatten = (bss.take 5).flatten ++ (bss.drop 5).flatten := by
      rw [← List.flatten_append, List.take_append_drop]
    rw [hsplit, run0_append _ _ (allBytes_flatten _ (fun x hx => (hwfd x hx).2)),
        flatten_len8 _ (fun x hx => (hwfd x hx).1),
        show 8 * (8 * (bss.drop 5).length) = 64 * (bss.drop 5).length from by ring]
    exact Nat.xor_assoc _ _ _

theorem toWords_eq_chunk8 : ∀ bs : List Nat, toWords bs = (chunk8 bs).map wordOf := by
  intro bs
  induction bs using chunk8.induct with
  | case1 b0 b1 b2 b3 b4 b5 b6 b7 rest ih => rw [toWords, chunk8, List.map_cons, ih]
  | case2 bs h =>
    rcases bs with _ | ⟨b0, bs⟩
    · rfl
    rcases bs with _ | ⟨b1, bs⟩
    · rfl
    rcases bs with _ | ⟨b2, bs⟩
    · rfl
    rcases bs with _ | ⟨b3, bs⟩
    · rfl
    rcases bs with _ | ⟨b4, bs⟩
    · rfl
    rcases bs with _ | ⟨b5, bs⟩
    · rfl
    rcases bs with _ | ⟨b6, bs⟩
    · rfl
    rcases bs with _ | ⟨b7, bs⟩
    · rfl
    exact absurd rfl (h b0 b1 b2 b3 b4 b5 b6 b7 bs)

theorem chunk8_cases (bs : List Nat)
    (h : ∀ (b0 b1 b2 b3 b4 b5 b6 b7 : Nat) (rest : List Nat),
      bs = b0 :: b1 :: b2 :: b3 :: b4 :: b5 :: b6 :: b7 :: rest → False) :
    chunk8 bs = [] ∧ bs.length < 8 := by
  rcases bs with _ | ⟨b0, bs⟩
  · exact ⟨rfl, by simp⟩
  rcases bs with _ | ⟨b1, bs⟩
  · exact ⟨rfl, by simp⟩
  rcases bs with _ | ⟨b2, bs⟩
  · exact ⟨rfl, by simp⟩
  rcases bs with _ | ⟨b3, bs⟩
  · exact ⟨rfl, by simp⟩
  rcases bs with _ | ⟨b4, bs⟩
  · exact ⟨rfl, by simp⟩
  rcases bs with _ | ⟨b5, bs⟩
  · exact ⟨rfl, by simp⟩
  rcases bs with _ | ⟨b6, bs⟩
  · exact ⟨rfl, by simp⟩
  rcases bs with _ | ⟨b7, bs⟩
  · exact ⟨rfl, by simp⟩
  exact absurd rfl (h b0 b1 b2 b3 b4 b5 b6 b7 bs)

theorem chunk8_length : ∀ bs : List Nat, bs.length % 8 = 0 →
    (chunk8 bs).length = bs.length / 8 := by
  intro bs
  induction bs using chunk8.induct with
  | case1 b0 b1 b2 b3 b4 b5 b6 b7 rest ih =>
    intro hmod
    simp only [List.length_cons] at hmod ⊢
    rw [chunk8, List.length_cons, ih (by omega)]
    omega
  | case2 bs h =>
    intro hmod
    obtain ⟨hnil, hlt⟩ := chunk8_cases bs h
    rw [hnil]
    simp
    omega

theorem chunk8_flatten : ∀ bs : List Nat, bs.length % 8 = 0 →
    (chunk8 bs).flatten = bs := by
  intro bs
  induction bs using chunk8.induct with
  | case1 b0 b1 b2 b3 b4 b5 b6 b7 rest ih =>
    intro hmod
    simp only [List.length_cons] at hmod
    rw [chunk8, List.flatten_cons, ih (by omega)]
    rfl
  | case2 bs h =>
    intro hmod
    obtain ⟨hnil, hlt⟩ := chunk8_cases bs h
    rw [hnil]
    have : bs.length = 0 := by omega
    rw [List.length_eq_zero.mp this]
    rfl

theorem chunk8_wf : ∀ bs : List Nat, allBytes bs →
    ∀ l ∈ chunk8 bs, l.length = 8 ∧ allBytes l := by
  intro bs
  induction bs using chunk8.induct with
  | case1 b0 b1 b2 b3 b4 b5 b6 b7 rest ih =>
    intro hab l hl
    rw [chunk8] at hl
    have habr : allBytes rest := by
      intro x hx
      apply hab
      simp [hx]
    rcases List.mem_cons.mp hl with h | h
    · refine ⟨by rw [h]; rfl, ?_⟩
      intro x hx
      rw [h] at hx
      apply hab
      simp at hx
      rcases hx with hx | hx | hx | hx | hx | hx | hx | hx <;> simp [hx]
    · exact ih habr l h
  | case2 bs h =>
    intro hab l hl
    obtain ⟨hnil, _⟩ := chunk8_cases bs h
    rw [hnil] at hl
    simp at hl

theorem laneSum_single (c L : Nat) : laneSum [c, 0, 0, 0, 0] L = mulxn (8 * L) c := by
  simp [laneSum, mulxn_zero]

theorem braid_toWords_run {mid : List Nat} {blks : Nat} (hblks : 1 ≤ blks)
    (hlen : mid.length = blks * 40) (hmb : allBytes mid) {c1 : Nat} (hc1 : c1 < 2 ^ 32) :
    braidGo [c1, 0, 0, 0, 0] (toWords mid) = run c1 mid := by
  have hmid8 : mid.length % 8 = 0 := by omega
  have hchlen : (chunk8 mid).length = 5 * blks := by
    rw [chunk8_length mid hmid8, hlen]
    omega
  obtain ⟨bl1, hbl1⟩ : ∃ b, blks = b + 1 := ⟨blks - 1, by omega⟩
  have hlanes : ∀ c ∈ [c1, 0, 0, 0, 0], c < 2 ^ 32 := by
    intro x hx
    simp at hx
    rcases hx with hx | hx
    · rw [hx]; exact hc1
    · rw [hx]; norm_num
  have hgo := braidGo_spec bl1 (chunk8 mid) [c1, 0, 0, 0, 0]
    (by rw [hchlen, hbl1]) rfl (chunk8_wf mid hmb) hlanes
  rw [toWords_eq_chunk8 mid, hgo, chunk8_flatten mid hmid8, laneSum_single, hchlen,
      show 8 * (8 * (5 * blks)) = 8 * mid.length from by rw [hlen]; ring,
      ← run_decomp mid hmb _ hc1]

/-- The braided fast path of crc32_z computes exactly what the plain byte
loop computes: the central refinement lemma. -/
theorem crc32_z_eq_bytes (addr crc : Nat) (bs : List Nat) (hbs : allBytes bs) :
    crc32_z addr crc (some bs) = crc32_bytes crc bs := by
  rw [crc32_z, crc32_bytes]
  by_cases hlen : 5 * 8 + 8 - 1 ≤ bs.length
  · rw [if_pos hlen]
    have hc0lt : crc % 2 ^ 32 ^^^ 0xffffffff < 2 ^ 32 :=
      Nat.xor_lt_two_pow (Nat.mod_lt _ (by norm_num)) (by norm_num)
    have halle : min ((8 - addr % 8) % 8) bs.length ≤ 7 := by
      have h1 : (8 - addr % 8) % 8 < 8 := Nat.mod_lt _ (by norm_num)
      omega
    have hrlen : (bs.drop (min ((8 - addr % 8) % 8) bs.length)).length =
        bs.length - min ((8 - addr % 8) % 8) bs.length := List.length_drop _ _
    have hrge : 40 ≤ (bs.drop (min ((8 - addr % 8) % 8) bs.length)).length := by omega
    have hblks1 : 1 ≤ (bs.drop (min ((8 - addr % 8) % 8) bs.length)).length / 40 :=
      (Nat.one_le_div_iff (by norm_num)).mpr hrge
    have hrestbytes : allBytes (bs.drop (min ((8 - addr % 8) % 8) bs.length)) :=
      fun x hx => hbs x (List.mem_of_mem_drop hx)
    have hmidbytes : allBytes ((bs.drop (min ((8 - addr % 8) % 8) bs.length)).take
        ((bs.drop (min ((8 - addr % 8) % 8) bs.length)).length / 40 * 40)) :=
      fun x hx => hrestbytes x (List.mem_of_mem_take hx)
    have hmidlen : ((bs.drop (min ((8 - addr % 8) % 8) bs.length)).take
        ((bs.drop (min ((8 - addr % 8) % 8) bs.length)).length / 40 * 40)).length =
        (bs.drop (min ((8 - addr % 8) % 8) bs.length)).length / 40 * 40 := by
      rw [List.length_take]
      have := Nat.div_mul_le_self (bs.drop (min ((8 - addr % 8) % 8) bs.length)).length 40
      omega
    dsimp only
    rw [braid_toWords_run hblks1 (by rw [hmidlen]) hmidbytes (run_lt hc0lt _),
        ← run_append, ← run_append, List.take_append_drop, List.take_append_drop]
  · rw [if_neg hlen]

/-- C2: for every buffer address, initial crc value and byte buffer, the
braided fast path of crc32_z (taken when the length is at least
N * W + W - 1 = 47: leading alignment bytes one at a time, then N = 5
interleaved word-lane accumulators merged by crc_word, then the tail bytes
one at a time) returns exactly the same value as the plain byte-at-a-time
table loop crc = (crc >> 8) ^ crc_table[(crc ^ byte) and 0xFF] over the
whole buffer; in particular this holds at the activation threshold minus
one, at the threshold, and at the threshold plus one. -/
theorem braided_crc_eq_byte_loop (addr crc : Nat) (bs : List Nat) (hbs : allBytes bs) :
    crc32_z addr crc (some bs) = crc32_bytes crc bs :=
  crc32_z_eq_bytes addr crc bs hbs

/-- Witness for braided_crc_eq_byte_loop: a 47-byte buffer (the exact
activation threshold) at a misaligned address. -/
theorem braided_crc_eq_byte_loop_witness :
    allBytes ((List.range 47).map (fun i => (7 * i + 3) % 256)) ∧
    crc32_z 5 1 (some ((List.range 47).map (fun i => (7 * i + 3) % 256))) =
      crc32_bytes 1 ((List.range 47).map (fun i => (7 * i + 3) % 256)) :=
  ⟨by decide, braided_crc_eq_byte_loop 5 1 _ (by decide)⟩

/-- C1: the combination law.  For all byte sequences a and b, combining
their independently computed CRCs with crc32_combine64 equals the CRC of
the concatenation: crc32_combine64 (crc32 0 a) (crc32 0 b) (len b) equals
crc32 0 (a ++ b), where the combine is multmodp (x2nmodp (len b) 3) crc_a
xor crc_b, that is multiplication by x^(8 len_b) modulo the CRC generator
polynomial over GF(2).  The buffer addresses are arbitrary since the result
of crc32 does not depend on them. -/
theorem crc32_combine64_law : ∀ (a b : List Nat), allBytes a → allBytes b →
    ∀ addrA addrB addrC : Nat,
    crc32_combine64 (crc32 addrA 0 (some a)) (crc32 addrB 0 (some b)) b.length =
      crc32 addrC 0 (some (a ++ b)) := by
  intro a b ha hb addrA addrB addrC
  have hab : allBytes (a ++ b) := by
    intro x hx
    rcases List.mem_append.mp hx with h | h
    · exact ha x h
    · exact hb x h
  rw [crc32, crc32, crc32, crc32_z_eq_bytes _ _ a ha, crc32_z_eq_bytes _ _ b hb,
      crc32_z_eq_bytes _ _ (a ++ b) hab]
  exact crc32_combine_bytes a b ha hb

/-- Witness for crc32_combine64_law at concrete byte sequences. -/
theorem crc32_combine64_law_witness :
    allBytes [1, 2, 3] ∧ allBytes [250, 255, 0, 7] ∧
    crc32_combine64 (crc32 0 0 (some [1, 2, 3])) (crc32 3 0 (some [250, 255, 0, 7])) 4 =
      crc32 6 0 (some ([1, 2, 3] ++ [250, 255, 0, 7])) :=
  ⟨by decide, by decide,
   crc32_combine64_law [1, 2, 3] [250, 255, 0, 7] (by decide) (by decide) 0 3 6⟩

/-! ### Bit-writer lemmas (claim C7) -/

theorem and255_eq_mod_t (x : Nat) : x &&& 255 = x % 256 := by
  have h := Nat.and_pow_two_sub_one_eq_mod x 8
  norm_num at h
  exact h

theorem bitsOfBytes_append (a b : List Nat) :
    bitsOfBytes (a ++ b) = bitsOfBytes a ++ bitsOfBytes b := by
  simp [bitsOfBytes]

theorem bitsOfBytes_singleton (b : Nat) : bitsOfBytes [b] = bitsOfByte b := by
  simp [bitsOfBytes]

theorem range_map_split (a b : Nat) (f : Nat → Bool) :
    (List.range (a + b)).map f =
      (List.range a).map f ++ (List.range b).map (fun j => f (a + j)) := by
  rw [List.range_add, List.map_append, List.map_map]
  rfl

theorem range_map_split_of_eq (f : Nat → Bool) (n a b : Nat) (h : n = a + b) :
    (List.range n).map f =
      (List.range a).map f ++ (List.range b).map (fun j => f (a + j)) :=
  (congrArg (fun m => (List.range m).map f) h).trans (range_map_split a b f)

theorem map_range_false (n : Nat) (f : Nat → Bool) (h : ∀ i, i < n → f i = false) :
    (List.range n).map f = List.replicate n false := by
  refine List.eq_replicate_iff.mpr ⟨by simp, ?_⟩
  intro b hb
  simp only [List.mem_map, List.mem_range] at hb
  obtain ⟨i, hi, rfl⟩ := hb
  exact h i hi

theorem streamBits_put_short (s : DState) (x : Nat) (hx : x < 2 ^ 16) :
    bitsOfBytes (put_short s x).pending =
      bitsOfBytes s.pending ++ (List.range 16).map (fun i => x.testBit i) := by
  have hm : x % 65536 = x := Nat.mod_eq_of_lt hx
  have hb2 : x >>> 8 < 256 := by
    rw [Nat.shiftRight_eq_div_pow]
    omega
  have h1 : (x &&& 255) % 256 = x % 256 := by
    rw [and255_eq_mod_t]
    omega
  show bitsOfBytes ((s.pending ++ [(x &&& 255) % 256]) ++ [(x % 65536) >>> 8 % 256]) = _
  rw [bitsOfBytes_append, bitsOfBytes_append, bitsOfBytes_singleton, bitsOfBytes_singleton,
      List.append_assoc, hm, Nat.mod_eq_of_lt hb2, h1]
  congr 1
  have h16 : (16 : Nat) = 8 + 8 := rfl
  rw [h16, range_map_split]
  congr 1
  · unfold bitsOfByte
    apply List.map_congr_left
    intro i hi
    have hi8 : i < 8 := List.mem_range.mp hi
    have h256 : (256 : Nat) = 2 ^ 8 := by norm_num
    rw [h256, Nat.testBit_mod_two_pow]
    simp [hi8]

theorem testBit_or_shift (a v sh i : Nat) :
    (a ||| v <<< sh).testBit i =
      (a.testBit i || (decide (sh ≤ i) && v.testBit (i - sh))) := by
  rw [Nat.testBit_or, Nat.testBit_shiftLeft]


/-- The bits of a value below 2^k, read out to width w ≥ k: the k live bits
then zero padding. -/
theorem acc_bits_split (x w k : Nat) (hx : x < 2 ^ k) (hk : k ≤ w) :
    (List.range w).map (fun i => x.testBit i) =
      (List.range k).map (fun i => x.testBit i) ++ List.replicate (w - k) false := by
  have hw : w = k + (w - k) := by omega
  calc (List.range w).map (fun i => x.testBit i)
      = (List.range (k + (w - k))).map (fun i => x.testBit i) := by rw [← hw]
  _ = (List.range k).map (fun i => x.testBit i) ++
      (List.range (w - k)).map (fun j => x.testBit (k + j)) := range_map_split _ _ _
  _ = (List.range k).map (fun i => x.testBit i) ++ List.replicate (w - k) false := by
      congr 1
      apply map_range_false
      intro i _
      exact Nat.testBit_lt_two_pow (lt_of_lt_of_le hx
        (Nat.pow_le_pow_right (by norm_num) (by omega)))

/-- C7: each send_bits call with 1 ≤ length ≤ 16, starting from a consistent
accumulator (bi_valid ≤ 16 live bits, bi_buf below 2^bi_valid), appends
exactly the length low bits of value, least significant first, to the
logical bit stream, keeps the accumulator consistent (the value bound is
needed only for the bi_buf bound, and holds at every call site since codes
fit their lengths); and bi_windup pads the stream with zero bits to a byte
boundary, consuming nothing and leaving bi_buf = 0, bi_valid = 0. -/
theorem acc_testBit_low (a v sh i : Nat) (hi : i < sh) (h16 : i < 16) :
    ((a ||| (v % 65536) <<< sh) % 65536).testBit i = a.testBit i := by
  have h65536 : (65536 : Nat) = 2 ^ 16 := by norm_num
  rw [h65536, Nat.testBit_mod_two_pow, testBit_or_shift]
  simp [h16, Nat.not_le.mpr hi]

theorem acc_testBit_high (a v sh j : Nat) (ha : a < 2 ^ sh) (hj : sh + j < 16) :
    ((a ||| (v % 65536) <<< sh) % 65536).testBit (sh + j) = v.testBit j := by
  have h65536 : (65536 : Nat) = 2 ^ 16 := by norm_num
  have hhigh : a.testBit (sh + j) = false :=
    Nat.testBit_lt_two_pow (lt_of_lt_of_le ha
      (Nat.pow_le_pow_right (by norm_num) (by omega)))
  have hsle : sh ≤ sh + j := by omega
  have hj16 : j < 16 := by omega
  rw [h65536, Nat.testBit_mod_two_pow, testBit_or_shift, Nat.testBit_mod_two_pow]
  simp [hj, hhigh, hsle, hj16, Nat.add_sub_cancel_left]

/-- C7: each send_bits call with 1 ≤ length ≤ 16, starting from a consistent
accumulator (bi_valid ≤ 16 live bits, bi_buf below 2^bi_valid), appends
exactly the length low bits of value, least significant first, to the
logical bit stream, keeps the accumulator consistent (the value bound is
needed only for the bi_buf bound, and holds at every call site since codes
fit their lengths); and bi_windup pads the stream with zero bits to a byte
boundary, consuming nothing and leaving bi_buf = 0, bi_valid = 0. -/
theorem send_bits_appends_low_bits :
    (∀ (s : DState) (v len : Nat), 1 ≤ len → len ≤ 16 →
      s.bi_valid ≤ 16 → s.bi_buf < 2 ^ s.bi_valid →
      streamBits (send_bits s v len) =
        streamBits s ++ (List.range len).map (fun i => v.testBit i) ∧
      (send_bits s v len).bi_valid ≤ 16 ∧
      (v < 2 ^ len → (send_bits s v len).bi_buf < 2 ^ (send_bits s v len).bi_valid)) ∧
    (∀ s : DState, s.bi_valid ≤ 16 → s.bi_buf < 2 ^ s.bi_valid →
      streamBits (bi_windup s) =
        streamBits s ++ List.replicate ((8 - s.bi_valid % 8) % 8) false ∧
      (bi_windup s).bi_buf = 0 ∧ (bi_windup s).bi_valid = 0) := by
  constructor
  · intro s v len h1 h16 hbv hbb
    unfold send_bits
    simp only [Buf_size]
    by_cases hc : 16 - len < s.bi_valid
    · rw [if_pos hc]
      have hbbm : (s.bi_buf ||| (v % 65536) <<< s.bi_valid) % 65536 < 2 ^ 16 := by
        have h65536 : (65536 : Nat) = 2 ^ 16 := by norm_num
        omega
      refine ⟨?_, by dsimp only; omega, ?_⟩
      · unfold streamBits
        dsimp only
        rw [streamBits_put_short _ _ hbbm]
        rw [List.append_assoc, List.append_assoc]
        congr 1
        rw [range_map_split_of_eq
          (fun i => ((s.bi_buf ||| (v % 65536) <<< s.bi_valid) % 65536).testBit i)
          16 s.bi_valid (16 - s.bi_valid) (by omega)]
        rw [range_map_split_of_eq (fun i => v.testBit i)
          len (16 - s.bi_valid) (s.bi_valid + len - 16) (by omega)]
        rw [List.append_assoc]
        congr 1
        · apply List.map_congr_left
          intro i hi
          have hilt : i < s.bi_valid := List.mem_range.mp hi
          exact acc_testBit_low _ _ _ _ hilt (by omega)
        · congr 1
          · apply List.map_congr_left
            intro j hj
            have hjlt : j < 16 - s.bi_valid := List.mem_range.mp hj
            exact acc_testBit_high _ _ _ _ hbb (by omega)
          · apply List.map_congr_left
            intro j hj
            have hjlt : j < s.bi_valid + len - 16 := List.mem_range.mp hj
            rw [Nat.testBit_shiftRight]
            have h65536 : (65536 : Nat) = 2 ^ 16 := by norm_num
            rw [h65536, Nat.testBit_mod_two_pow]
            have hlt16 : 16 - s.bi_valid + j < 16 := by omega
            simp [hlt16]
      · intro hv
        dsimp only
        have hv16 : v < 2 ^ 16 := lt_of_lt_of_le hv (Nat.pow_le_pow_right (by norm_num) h16)
        rw [Nat.mod_eq_of_lt (by omega : v < 65536), Nat.shiftRight_eq_div_pow]
        rw [Nat.div_lt_iff_lt_mul (Nat.pos_pow_of_pos _ (by norm_num))]
        calc v < 2 ^ len := hv
        _ ≤ 2 ^ (s.bi_valid + len - 16) * 2 ^ (16 - s.bi_valid) := by
            rw [← pow_add]
            exact Nat.pow_le_pow_right (by norm_num) (by omega)
    · rw [if_neg hc]
      have hle : s.bi_valid ≤ 16 - len := Nat.not_lt.mp hc
      have hsum : s.bi_valid + len ≤ 16 := by omega
      refine ⟨?_, by dsimp only; omega, ?_⟩
      · unfold streamBits
        dsimp only
        rw [List.append_assoc]
        congr 1
        rw [range_map_split]
        congr 1
        · apply List.map_congr_left
          intro i hi
          have hilt : i < s.bi_valid := List.mem_range.mp hi
          exact acc_testBit_low _ _ _ _ hilt (by omega)
        · apply List.map_congr_left
          intro j hj
          have hjlt : j < len := List.mem_range.mp hj
          exact acc_testBit_high _ _ _ _ hbb (by omega)
      · intro hv
        dsimp only
        have hor : s.bi_buf ||| (v % 65536) <<< s.bi_valid < 2 ^ (s.bi_valid + len) := by
          apply Nat.or_lt_two_pow
          · exact lt_of_lt_of_le hbb (Nat.pow_le_pow_right (by norm_num) (by omega))
          · have hv16 : v < 2 ^ 16 :=
              lt_of_lt_of_le hv (Nat.pow_le_pow_right (by norm_num) h16)
            rw [Nat.mod_eq_of_lt (by omega : v < 65536), Nat.shiftLeft_eq]
            calc v * 2 ^ s.bi_valid < 2 ^ len * 2 ^ s.bi_valid :=
                  (Nat.mul_lt_mul_right
                    (Nat.pos_pow_of_pos s.bi_valid (by norm_num : 0 < 2))).mpr hv
            _ = 2 ^ (s.bi_valid + len) := by rw [← pow_add, Nat.add_comm]
        exact lt_of_le_of_lt (Nat.mod_le _ _) hor
  · intro s hbv hbb
    unfold bi_windup
    by_cases h8 : s.bi_valid > 8
    · rw [if_pos h8]
      have hbb16 : s.bi_buf < 2 ^ 16 := by
        calc s.bi_buf < 2 ^ s.bi_valid := hbb
        _ ≤ 2 ^ 16 := Nat.pow_le_pow_right (by norm_num) hbv
      refine ⟨?_, rfl, rfl⟩
      unfold streamBits
      dsimp only
      rw [streamBits_put_short _ _ hbb16]
      simp only [List.range_zero, List.map_nil, List.append_nil]
      rw [List.append_assoc]
      congr 1
      have hpad : (8 - s.bi_valid % 8) % 8 = 16 - s.bi_valid := by omega
      rw [hpad, acc_bits_split s.bi_buf 16 s.bi_valid hbb hbv]
    · rw [if_neg h8]
      by_cases h0 : s.bi_valid > 0
      · rw [if_pos h0]
        have hle8 : s.bi_valid ≤ 8 := by omega
        have hbb8 : s.bi_buf < 2 ^ 8 := by
          calc s.bi_buf < 2 ^ s.bi_valid := hbb
          _ ≤ 2 ^ 8 := Nat.pow_le_pow_right (by norm_num) hle8
        refine ⟨?_, rfl, rfl⟩
        unfold streamBits put_byte
        dsimp only
        simp only [List.range_zero, List.map_nil, List.append_nil]
        rw [bitsOfBytes_append, bitsOfBytes_singleton]
        rw [List.append_assoc]
        congr 1
        have hb : s.bi_buf % 256 % 256 = s.bi_buf := by omega
        rw [hb]
        have hpad : (8 - s.bi_valid % 8) % 8 = 8 - s.bi_valid := by omega
        rw [hpad]
        exact acc_bits_split s.bi_buf 8 s.bi_valid hbb hle8
      · rw [if_neg h0]
        have hv0 : s.bi_valid = 0 := by omega
        refine ⟨?_, rfl, rfl⟩
        unfold streamBits
        simp [hv0]


theorem send_bits_appends_low_bits_witness :
    streamBits (send_bits baseState 5 3) =
      streamBits baseState ++ (List.range 3).map (fun i => Nat.testBit 5 i) ∧
    (send_bits baseState 5 3).bi_valid ≤ 16 ∧
    ((5 : Nat) < 2 ^ 3 →
      (send_bits baseState 5 3).bi_buf < 2 ^ (send_bits baseState 5 3).bi_valid) ∧
    streamBits (bi_windup (send_bits baseState 5 3)) =
      streamBits (send_bits baseState 5 3) ++
        List.replicate ((8 - (send_bits baseState 5 3).bi_valid % 8) % 8) false ∧
    (bi_windup (send_bits baseState 5 3)).bi_buf = 0 ∧
    (bi_windup (send_bits baseState 5 3)).bi_valid = 0 := by
  have h1 := send_bits_appends_low_bits.1 baseState 5 3 (by decide) (by decide)
    (by decide) (by decide)
  have h2 := send_bits_appends_low_bits.2 (send_bits baseState 5 3)
    (by decide) (by decide)
  exact ⟨h1.1, h1.2.1, h1.2.2, h2.1, h2.2.1, h2.2.2⟩

/-! ### Block-choice decision (claim C6) -/

/-- C6 (corrected): the encoding decision of _tr_flush_block.  The code
first replaces the dynamic cost by the static cost when static_lenb ≤
opt_lenb or the strategy is Z_FIXED (chosen_cost), and then compares
stored_len + 4 against that chosen cost — not against the best (minimum) of
the dynamic and static costs, as the claim states.  First conjunct: the
decision as the code makes it; second: the claimed rule is equivalent
whenever the strategy is not Z_FIXED.  The disagreement in the Z_FIXED
case is exhibited by block_choice_spec_counterexample below. -/
theorem block_choice_corrected :
    (∀ (stored_len opt_lenb static_lenb : Nat) (bufp fixed : Bool),
      block_choice stored_len bufp (chosen_cost opt_lenb static_lenb fixed) static_lenb =
        if stored_len + 4 ≤ chosen_cost opt_lenb static_lenb fixed ∧ bufp = true
        then STORED_BLOCK
        else if static_lenb ≤ opt_lenb ∨ fixed = true then STATIC_TREES
        else DYN_TREES) ∧
    (∀ (stored_len opt_lenb static_lenb : Nat) (bufp : Bool),
      block_choice stored_len bufp (chosen_cost opt_lenb static_lenb false) static_lenb =
        block_choice_spec stored_len bufp opt_lenb static_lenb false) := by
  refine ⟨?_, ?_⟩
  · intro stored opt stat bufp fixed
    by_cases hco : stat ≤ opt ∨ fixed = true
    · simp [block_choice, chosen_cost, hco]
    · have h1 : ¬ stat ≤ opt := fun h => hco (Or.inl h)
      have h2 : stat ≠ opt := by omega
      simp [block_choice, chosen_cost, hco, h2]
  · intro stored opt stat bufp
    by_cases hso : stat ≤ opt
    · have hmin : min opt stat = stat := by omega
      simp [block_choice, block_choice_spec, chosen_cost, hso, hmin]
    · have hmin : min opt stat = opt := by omega
      have h2 : stat ≠ opt := by omega
      simp [block_choice, block_choice_spec, chosen_cost, hso, hmin, h2]

/-- Counterexample to C6 as stated: with the Z_FIXED strategy, dynamic cost
10, static cost 20 and stored_len 10 (buffer available), the code picks a
stored block (it compares 10 + 4 against the assigned cost 20), while the
claimed rule compares against the best cost min 10 20 = 10 and picks
static. -/
theorem block_choice_spec_counterexample :
    block_choice 10 true (chosen_cost 10 20 true) 20 = STORED_BLOCK ∧
    block_choice_spec 10 true 10 20 true = STATIC_TREES ∧
    STORED_BLOCK ≠ STATIC_TREES := by decide

/-! ### Flush-block frame effect (claim C8) -/

theorem init_block_ltree_fc (e : DState) (n : Nat) (h : n < L_CODES) :
    ((init_block e).dyn_ltree n).fc = if n = END_BLOCK then 1 else 0 := by
  by_cases hn : n = END_BLOCK <;> simp [init_block, hn, h]

theorem init_block_dtree_fc (e : DState) (n : Nat) (h : n < D_CODES) :
    ((init_block e).dyn_dtree n).fc = 0 := by
  simp [init_block, h]

theorem init_block_bltree_fc (e : DState) (n : Nat) (h : n < BL_CODES) :
    ((init_block e).bl_tree n).fc = 0 := by
  simp [init_block, h]

theorem bi_windup_frame (x : DState) :
    (bi_windup x).dyn_ltree = x.dyn_ltree ∧ (bi_windup x).dyn_dtree = x.dyn_dtree ∧
    (bi_windup x).bl_tree = x.bl_tree ∧ (bi_windup x).opt_len = x.opt_len ∧
    (bi_windup x).static_len = x.static_len ∧ (bi_windup x).sym_next = x.sym_next ∧
    (bi_windup x).matches_ = x.matches_ := by
  unfold bi_windup put_short put_byte
  split_ifs <;> exact ⟨rfl, rfl, rfl, rfl, rfl, rfl, rfl⟩

/-- C8: whenever _tr_flush_block succeeds, the result is init_block of the
post-emission state (bi_windup-ed on the last block): all frequency
counters of the three trees are reset to the next-block pattern (only
END_BLOCK keeps frequency 1), opt_len, static_len, sym_next and the match
counter are cleared, init_block leaves the pending output and the bit
accumulator untouched, and on the last block the bit accumulator is flushed
to the byte boundary (bi_buf = bi_valid = 0), while on a non-final block
even the accumulator is exactly that of the emission state. -/
theorem tr_flush_block_frame :
    ∀ (length_code dist_code baseLength baseDist : Nat → Nat) (s : DState)
      (buf : Option (List Nat)) (stored_len : Nat) (last : Bool) (sf : DState),
      tr_flush_block length_code dist_code baseLength baseDist s buf stored_len last =
        some sf →
      ∃ e : DState,
        sf = (if last then bi_windup (init_block e) else init_block e) ∧
        (∀ n, n < L_CODES → ((sf.dyn_ltree n).fc = if n = END_BLOCK then 1 else 0)) ∧
        (∀ n, n < D_CODES → (sf.dyn_dtree n).fc = 0) ∧
        (∀ n, n < BL_CODES → (sf.bl_tree n).fc = 0) ∧
        sf.opt_len = 0 ∧ sf.static_len = 0 ∧ sf.sym_next = 0 ∧ sf.matches_ = 0 ∧
        (init_block e).pending = e.pending ∧
        (init_block e).bi_buf = e.bi_buf ∧ (init_block e).bi_valid = e.bi_valid ∧
        (last = true → sf.bi_valid = 0 ∧ sf.bi_buf = 0) ∧
        (last = false →
          sf.pending = e.pending ∧ sf.bi_buf = e.bi_buf ∧ sf.bi_valid = e.bi_valid) := by
  intro lc dc bL bD s buf sl last sf h
  unfold tr_flush_block at h
  cases hp : tr_flush_pre s sl with
  | none => rw [hp] at h; exact absurd h (by simp)
  | some p =>
    obtain ⟨sp, ob, sb, mbi⟩ := p
    rw [hp] at h
    simp only [Option.some.injEq] at h
    refine ⟨tr_emit lc dc bL bD sp buf sl last ob sb mbi, h.symm, ?_⟩
    set e := tr_emit lc dc bL bD sp buf sl last ob sb mbi with he
    cases last with
    | true =>
      have hw := bi_windup_frame (init_block e)
      have hsf : sf = bi_windup (init_block e) := by rw [← h]; simp
      refine ⟨?_, ?_, ?_, ?_, ?_, ?_, ?_, rfl, rfl, rfl, ?_, ?_⟩
      · intro n hn
        rw [hsf, hw.1]
        exact init_block_ltree_fc e n hn
      · intro n hn
        rw [hsf, hw.2.1]
        exact init_block_dtree_fc e n hn
      · intro n hn
        rw [hsf, hw.2.2.1]
        exact init_block_bltree_fc e n hn
      · rw [hsf, hw.2.2.2.1]; rfl
      · rw [hsf, hw.2.2.2.2.1]; rfl
      · rw [hsf, hw.2.2.2.2.2.1]; rfl
      · rw [hsf, hw.2.2.2.2.2.2]; rfl
      · intro _
        rw [hsf]
        exact ⟨rfl, rfl⟩
      · intro hfalse
        exact absurd hfalse (by simp)
    | false =>
      have hsf : sf = init_block e := by rw [← h]; simp
      refine ⟨?_, ?_, ?_, ?_, ?_, ?_, ?_, rfl, rfl, rfl, ?_, ?_⟩
      · intro n hn
        rw [hsf]
        exact init_block_ltree_fc e n hn
      · intro n hn
        rw [hsf]
        exact init_block_dtree_fc e n hn
      · intro n hn
        rw [hsf]
        exact init_block_bltree_fc e n hn
      · rw [hsf]; rfl
      · rw [hsf]; rfl
      · rw [hsf]; rfl
      · rw [hsf]; rfl
      · intro htrue
        exact absurd htrue (by simp)
      · intro _
        rw [hsf]
        exact ⟨rfl, rfl, rfl⟩

theorem tr_flush_block_frame_witness :
    (tr_flush_block id id id id baseState (some [7, 8]) 2 true).isSome = true ∧
    (((tr_flush_block id id id id baseState (some [7, 8]) 2 true).getD baseState).opt_len = 0 ∧
     ((tr_flush_block id id id id baseState (some [7, 8]) 2 true).getD baseState).sym_next = 0 ∧
     (((tr_flush_block id id id id baseState (some [7, 8]) 2 true).getD
        baseState).dyn_ltree END_BLOCK).fc = 1 ∧
     ((tr_flush_block id id id id baseState (some [7, 8]) 2 true).getD baseState).bi_valid = 0) := by
  have hsome : (tr_flush_block id id id id baseState (some [7, 8]) 2 true).isSome = true := by
    rfl
  obtain ⟨x, hx⟩ := Option.isSome_iff_exists.mp hsome
  obtain ⟨e, he, hl, hd, hb, ho, hst, hsy, hm, _, _, _, hlast, _⟩ :=
    tr_flush_block_frame id id id id baseState (some [7, 8]) 2 true x hx
  refine ⟨hsome, ?_⟩
  rw [hx]
  simp only [Option.getD_some]
  refine ⟨ho, hsy, ?_, (hlast rfl).1⟩
  have := hl END_BLOCK (by decide)
  simpa using this

/-! ### Canonical code assignment (claim C5) -/

theorem countLen_succ (tree : Nat → CtData) (k len : Nat) :
    countLen tree (k + 1) len =
      countLen tree k len + (if (tree k).dl = len then 1 else 0) := by
  unfold countLen
  rw [List.range_succ, List.filter_append]
  by_cases h : (tree k).dl = len <;> simp [h]

theorem gc_fold_invariant (tree : Nat → CtData) (blc : Nat → Nat) :
    ∀ k : Nat,
      (∀ m, ((((List.range k).foldl gc_body
          (tree, fun len => firstCode blc len % 65536)).1 m).dl = (tree m).dl)) ∧
      (∀ m, k ≤ m → ((List.range k).foldl gc_body
          (tree, fun len => firstCode blc len % 65536)).1 m = tree m) ∧
      (∀ len, len ≠ 0 → ((List.range k).foldl gc_body
          (tree, fun len => firstCode blc len % 65536)).2 len =
          (firstCode blc len + countLen tree k len) % 65536) ∧
      (∀ m, m < k → (tree m).dl = 0 → ((List.range k).foldl gc_body
          (tree, fun len => firstCode blc len % 65536)).1 m = tree m) ∧
      (∀ m, m < k → (tree m).dl ≠ 0 → ((List.range k).foldl gc_body
          (tree, fun len => firstCode blc len % 65536)).1 m =
          ⟨bi_reverse ((firstCode blc (tree m).dl + countLen tree m (tree m).dl) % 65536)
              (tree m).dl % 65536,
            (tree m).dl⟩) := by
  intro k
  induction k with
  | zero =>
    refine ⟨fun m => rfl, fun m _ => rfl, fun len _ => ?_, fun m hm => absurd hm (by omega),
      fun m hm => absurd hm (by omega)⟩
    simp [countLen]
  | succ k ih =>
    obtain ⟨ih1, ih2, ih3, ih4, ih5⟩ := ih
    rw [List.range_succ, List.foldl_append]
    simp only [List.foldl_cons, List.foldl_nil]
    set q := (List.range k).foldl gc_body (tree, fun len => firstCode blc len % 65536)
      with hq
    have hlenk : (q.1 k).dl = (tree k).dl := ih1 k
    by_cases h0 : (tree k).dl = 0
    · have hbody : gc_body q k = q := by
        unfold gc_body
        rw [hlenk, if_pos h0]
      rw [hbody]
      refine ⟨ih1, fun m hm => ih2 m (by omega), fun len hl => ?_, fun m hm hz => ?_,
        fun m hm hnz => ?_⟩
      · rw [ih3 len hl, countLen_succ]
        have : ¬ (tree k).dl = len := by omega
        simp [this]
      · rcases Nat.lt_succ_iff_lt_or_eq.mp hm with hm' | rfl
        · exact ih4 m hm' hz
        · exact ih2 m (le_refl m)
      · rcases Nat.lt_succ_iff_lt_or_eq.mp hm with hm' | rfl
        · exact ih5 m hm' hnz
        · exact absurd h0 hnz
    · have hbody : gc_body q k =
          (setFc q.1 k (bi_reverse (q.2 (tree k).dl) (tree k).dl % 65536),
           Function.update q.2 (tree k).dl ((q.2 (tree k).dl + 1) % 65536)) := by
        unfold gc_body
        rw [hlenk, if_neg h0]
      rw [hbody]
      refine ⟨fun m => ?_, fun m hm => ?_, fun len hl => ?_, fun m hm hz => ?_,
        fun m hm hnz => ?_⟩
      · dsimp only
        by_cases hmk : m = k
        · subst hmk
          simp [setFc, hlenk]
        · simp [setFc, Function.update_noteq hmk, ih1 m]
      · have hmk : m ≠ k := by omega
        dsimp only
        simp only [setFc]
        rw [Function.update_noteq hmk]
        exact ih2 m (by omega)
      · dsimp only
        by_cases hlen : len = (tree k).dl
        · subst hlen
          rw [Function.update_same, ih3 _ hl, countLen_succ]
          simp only [if_true]
          omega
        · rw [Function.update_noteq hlen, ih3 len hl, countLen_succ]
          have hne : ¬ (tree k).dl = len := fun hh => hlen hh.symm
          simp [hne]
      · have hmk : m ≠ k := fun hh => h0 (hh ▸ hz)
        dsimp only
        simp only [setFc]
        rw [Function.update_noteq hmk]
        rcases Nat.lt_succ_iff_lt_or_eq.mp hm with hm' | rfl
        · exact ih4 m hm' hz
        · exact absurd rfl hmk
      · dsimp only
        by_cases hmk : m = k
        · subst hmk
          simp only [setFc]
          rw [Function.update_same, ih3 _ hnz, hlenk]
        · simp only [setFc]
          rw [Function.update_noteq hmk]
          rcases Nat.lt_succ_iff_lt_or_eq.mp hm with hm' | rfl
          · exact ih5 m hm' hnz
          · exact absurd rfl hmk

/-- C5: gen_codes assigns canonical codes.  First conjunct: the next_code
recurrence (first code of each length is the previous first code plus the
count at the previous length, shifted left by one).  Second: every symbol
up to max_code with length 0 is left untouched (no code), and every used
symbol n receives the next consecutive code of its length
(the length-len first code plus the number of earlier symbols of the same
length), bit-reversed over len by bi_reverse, with the ush truncations of
the C arrays.  Third: symbols beyond max_code are untouched. -/
theorem gen_codes_canonical :
    ∀ (tree : Nat → CtData) (max_code : Int) (blc : Nat → Nat),
      (∀ b : Nat, firstCode blc (b + 1) = (firstCode blc b + blc b) * 2) ∧
      (∀ n : Nat, (n : Int) ≤ max_code →
        ((tree n).dl = 0 → gen_codes tree max_code blc n = tree n) ∧
        ((tree n).dl ≠ 0 →
          gen_codes tree max_code blc n =
            ⟨bi_reverse ((firstCode blc (tree n).dl + countLen tree n (tree n).dl) % 65536)
                (tree n).dl % 65536,
              (tree n).dl⟩)) ∧
      (∀ n : Nat, max_code < (n : Int) → gen_codes tree max_code blc n = tree n) := by
  intro tree mc blc
  have inv := gc_fold_invariant tree blc ((mc + 1).toNat)
  refine ⟨fun b => rfl, fun n hn => ?_, fun n hn => ?_⟩
  · have hlt : n < (mc + 1).toNat := by omega
    exact ⟨fun hz => inv.2.2.2.1 n hlt hz, fun hnz => inv.2.2.2.2 n hlt hnz⟩
  · have hge : (mc + 1).toNat ≤ n := by omega
    exact inv.2.1 n hge

theorem gen_codes_canonical_witness :
    gen_codes (fun n => ⟨0, [2, 1, 3, 3].getD n 0⟩) 3 (fun l => [0, 1, 1, 2].getD l 0) 2 =
      ⟨bi_reverse ((firstCode (fun l => [0, 1, 1, 2].getD l 0) 3 +
          countLen (fun n => ⟨0, [2, 1, 3, 3].getD n 0⟩) 2 3) % 65536) 3 % 65536, 3⟩ ∧
    gen_codes (fun n => ⟨0, [2, 1, 3, 3].getD n 0⟩) 3 (fun l => [0, 1, 1, 2].getD l 0) 7 =
      ⟨0, [2, 1, 3, 3].getD 7 0⟩ := by
  constructor
  · exact ((gen_codes_canonical (fun n => ⟨0, [2, 1, 3, 3].getD n 0⟩) 3
      (fun l => [0, 1, 1, 2].getD l 0)).2.1 2 (by decide)).2 (by decide)
  · exact (gen_codes_canonical (fun n => ⟨0, [2, 1, 3, 3].getD n 0⟩) 3
      (fun l => [0, 1, 1, 2].getD l 0)).2.2 7 (by decide)

/-! ### The gen_bitlen repair loop (claim C4) -/

theorem elem_le_sum (l : List Nat) (g : Nat → Nat) (b : Nat) (hb : b ∈ l) :
    g b ≤ (l.map g).sum := by
  induction l with
  | nil => simp at hb
  | cons a l ih =>
    simp only [List.map_cons, List.sum_cons]
    rcases List.mem_cons.mp hb with rfl | hbl
    · omega
    · have := ih hbl
      omega

theorem sum_single (l : List Nat) (g : Nat → Nat) (b : Nat) (hb : b ∈ l)
    (hnd : l.Nodup) (h0 : ∀ x ∈ l, x ≠ b → g x = 0) : (l.map g).sum = g b := by
  induction l with
  | nil => simp at hb
  | cons a l ih =>
    simp only [List.map_cons, List.sum_cons]
    rcases List.mem_cons.mp hb with rfl | hbl
    · have htail : ∀ x ∈ l, g x = 0 := by
        intro x hx
        refine h0 x (List.mem_cons_of_mem _ hx) (fun he => ?_)
        exact (List.nodup_cons.mp hnd).1 (by rw [← he]; exact hx)
      have : (l.map g).sum = 0 := by
        apply List.sum_eq_zero
        intro y hy
        obtain ⟨x, hx, rfl⟩ := List.mem_map.mp hy
        exact htail x hx
      omega
    · have ha : g a = 0 := h0 a (List.mem_cons_self _ _)
        (fun he => (List.nodup_cons.mp hnd).1 (by rw [he]; exact hbl))
      rw [ha, ih hbl (List.nodup_cons.mp hnd).2
        (fun x hx hxb => h0 x (List.mem_cons_of_mem _ hx) hxb)]
      omega

theorem sum_map_update_w (l : List Nat) (f w : Nat → Nat) (b v : Nat)
    (hb : b ∈ l) (hnd : l.Nodup) :
    ((l.map (fun x => Function.update f b v x * w x)).sum) + f b * w b =
    ((l.map (fun x => f x * w x)).sum) + v * w b := by
  induction l with
  | nil => simp at hb
  | cons a l ih =>
    simp only [List.map_cons, List.sum_cons]
    rcases List.mem_cons.mp hb with rfl | hbl
    · have hnb : b ∉ l := (List.nodup_cons.mp hnd).1
      have htail : (l.map (fun x => Function.update f b v x * w x)).sum =
          (l.map (fun x => f x * w x)).sum := by
        apply congrArg List.sum
        apply List.map_congr_left
        intro x hx
        rw [Function.update_noteq (show x ≠ b from fun he => hnb (by rw [← he]; exact hx))]
      rw [htail, Function.update_same]
      omega
    · have hab : a ≠ b := fun he => (List.nodup_cons.mp hnd).1 (he ▸ hbl)
      rw [Function.update_noteq hab]
      have := ih hbl (List.nodup_cons.mp hnd).2
      omega

theorem sum_map_update_plain (l : List Nat) (f : Nat → Nat) (b v : Nat)
    (hb : b ∈ l) (hnd : l.Nodup) :
    ((l.map (Function.update f b v)).sum) + f b = ((l.map f).sum) + v := by
  induction l with
  | nil => simp at hb
  | cons a l ih =>
    simp only [List.map_cons, List.sum_cons]
    rcases List.mem_cons.mp hb with rfl | hbl
    · have hnb : b ∉ l := (List.nodup_cons.mp hnd).1
      have htail : (l.map (Function.update f b v)).sum = (l.map f).sum := by
        apply congrArg List.sum
        apply List.map_congr_left
        intro x hx
        exact Function.update_noteq
          (show x ≠ b from fun he => hnb (by rw [← he]; exact hx)) _ _
      rw [htail, Function.update_same]
      omega
    · have hab : a ≠ b := fun he => (List.nodup_cons.mp hnd).1 (he ▸ hbl)
      rw [Function.update_noteq hab]
      have := ih hbl (List.nodup_cons.mp hnd).2
      omega

/-- The backward bucket search of the repair loop finds a nonzero bucket
whenever one exists at or below the start index. -/
theorem findRepairBits_spec (blc : Nat → Nat) : ∀ k : Nat,
    (∃ b, b ≤ k ∧ blc b ≠ 0) →
    ∃ bits, findRepairBits blc k = some bits ∧ bits ≤ k ∧ blc bits ≠ 0 := by
  intro k
  induction k with
  | zero =>
    rintro ⟨b, hb, hnz⟩
    have hb0 : b = 0 := by omega
    subst hb0
    refine ⟨0, ?_, le_refl 0, hnz⟩
    unfold findRepairBits
    rw [if_pos hnz]
  | succ k ih =>
    rintro ⟨b, hb, hnz⟩
    by_cases hk : blc (k + 1) ≠ 0
    · refine ⟨k + 1, ?_, le_refl _, hk⟩
      unfold findRepairBits
      rw [if_pos hk]
    · have hb' : b ≤ k := by
        rcases Nat.lt_or_ge b (k + 1) with h | h
        · omega
        · exfalso
          have : b = k + 1 := by omega
          exact hk (this ▸ hnz)
      obtain ⟨bits, hf, hle, hnz2⟩ := ih ⟨b, hb', hnz⟩
      refine ⟨bits, ?_, by omega, hnz2⟩
      unfold findRepairBits
      rw [if_neg hk]
      exact hf

/-- One unfolding of the repair loop body. -/
theorem repairGo_succ (maxl fuel : Nat) (blc : Nat → Nat) (ov : Nat) :
    repairGo maxl (fuel + 1) blc ov =
      match findRepairBits blc (maxl - 1) with
      | none => none
      | some bits =>
        let blc1 := Function.update blc bits (blc bits - 1)
        let blc2 := Function.update blc1 (bits + 1) ((blc1 (bits + 1) + 2) % 65536)
        let blc3 := Function.update blc2 maxl
          (if blc2 maxl = 0 then 65535 else blc2 maxl - 1)
        if ov ≤ 2 then some blc3 else repairGo maxl fuel blc3 (ov - 2) := rfl

/-- The repair do-while of gen_bitlen: starting from a bl_count histogram
whose weighted Kraft sum exceeds 2^max_length by overflow/2, each pass finds
a nonzero bucket below max_length, moves one symbol down and two symbols off
the top bucket, lowering the weighted sum by exactly one; the loop reaches
overflow = 0 without ever touching the undefined-behaviour paths, and the
final histogram satisfies Kraft equality with the same total symbol count. -/
theorem repairGo_spec : ∀ (fuel B : Nat) (blc : Nat → Nat) (ov : Nat),
    1 ≤ B → B ≤ 15 → 2 ≤ ov → ov % 2 = 0 → ov ≤ 2 * fuel →
    blc 0 = 0 →
    ((List.range (B + 1)).map (fun b => blc b * 2 ^ (B - b))).sum = 2 ^ B + ov / 2 →
    ((List.range (B + 1)).map blc).sum ≤ 2 ^ B →
    ov / 2 ≤ blc B →
    ∃ blc2, repairGo B fuel blc ov = some blc2 ∧
      ((List.range (B + 1)).map (fun b => blc2 b * 2 ^ (B - b))).sum = 2 ^ B ∧
      ((List.range (B + 1)).map blc2).sum = ((List.range (B + 1)).map blc).sum ∧
      blc2 0 = 0 ∧ (∀ b, B < b → blc2 b = blc b) := by
  intro fuel
  induction fuel with
  | zero =>
    intro B blc ov _ _ hov2 _ hovf _ _ _ _
    omega
  | succ fuel ih =>
    intro B blc ov hB1 hB15 hov2 hoveven hovf h0 hW hT hBc
    have hmemB : B ∈ List.range (B + 1) := List.mem_range.mpr (by omega)
    have hnd : (List.range (B + 1)).Nodup := List.nodup_range _
    have hex : ∃ b, b ≤ B - 1 ∧ blc b ≠ 0 := by
      by_contra hall
      push_neg at hall
      have hz : ∀ x ∈ List.range (B + 1), x ≠ B → blc x = 0 := by
        intro x hx hxB
        have := List.mem_range.mp hx
        exact hall x (by omega)
      have hWs : ((List.range (B + 1)).map (fun b => blc b * 2 ^ (B - b))).sum =
          blc B * 2 ^ (B - B) := by
        apply sum_single _ _ B hmemB hnd
        intro x hx hxB
        rw [hz x hx hxB]
        omega
      have hTs : ((List.range (B + 1)).map blc).sum = blc B :=
        sum_single _ _ B hmemB hnd hz
      rw [Nat.sub_self, pow_zero, mul_one] at hWs
      omega
    obtain ⟨bits, hfind, hble, hbnz⟩ := findRepairBits_spec blc (B - 1) hex
    have hbits1 : 1 ≤ bits := by
      rcases Nat.eq_zero_or_pos bits with h | h
      · exact absurd (h ▸ h0) hbnz
      · exact h
    have hbitsB : bits + 1 ≤ B := by omega
    have hmem_bits : bits ∈ List.range (B + 1) := List.mem_range.mpr (by omega)
    have hmem_bits1 : bits + 1 ∈ List.range (B + 1) := List.mem_range.mpr (by omega)
    have hp15 : (2 : Nat) ^ B ≤ 32768 := by
      calc (2 : Nat) ^ B ≤ 2 ^ 15 := Nat.pow_le_pow_right (by omega) hB15
      _ = 32768 := by norm_num
    have hblc_le : ∀ b ∈ List.range (B + 1), blc b ≤ 2 ^ B := by
      intro b hbm
      calc blc b ≤ ((List.range (B + 1)).map blc).sum := elem_le_sum _ _ b hbm
      _ ≤ 2 ^ B := hT
    have hb1v : Function.update blc bits (blc bits - 1) (bits + 1) = blc (bits + 1) :=
      Function.update_noteq (by omega) _ _
    have hmod : (Function.update blc bits (blc bits - 1) (bits + 1) + 2) % 65536 =
        blc (bits + 1) + 2 := by
      rw [hb1v]
      exact Nat.mod_eq_of_lt (by have := hblc_le (bits + 1) hmem_bits1; omega)
    -- the three updates, written out
    set blc1 := Function.update blc bits (blc bits - 1) with hblc1
    set blc2 := Function.update blc1 (bits + 1) ((blc1 (bits + 1) + 2) % 65536)
      with hblc2
    have hblc2B : 1 ≤ blc2 B := by
      by_cases hcs : bits + 1 = B
      · rw [hblc2, ← hcs, Function.update_same, hmod]
        omega
      · rw [hblc2, Function.update_noteq (show B ≠ bits + 1 from
            fun he => hcs he.symm),
          hblc1, Function.update_noteq (show B ≠ bits by omega)]
        omega
    set blc3 := Function.update blc2 B (if blc2 B = 0 then 65535 else blc2 B - 1)
      with hblc3
    have hblc3_eq : blc3 = Function.update blc2 B (blc2 B - 1) := by
      rw [hblc3, if_neg (by omega)]
    -- weighted sums through the three updates
    have hW1 : ((List.range (B + 1)).map (fun b => blc1 b * 2 ^ (B - b))).sum +
        blc bits * 2 ^ (B - bits) =
        ((List.range (B + 1)).map (fun b => blc b * 2 ^ (B - b))).sum +
        (blc bits - 1) * 2 ^ (B - bits) :=
      sum_map_update_w _ _ _ _ _ hmem_bits hnd
    have hW2 : ((List.range (B + 1)).map (fun b => blc2 b * 2 ^ (B - b))).sum +
        blc1 (bits + 1) * 2 ^ (B - (bits + 1)) =
        ((List.range (B + 1)).map (fun b => blc1 b * 2 ^ (B - b))).sum +
        ((blc1 (bits + 1) + 2) % 65536) * 2 ^ (B - (bits + 1)) :=
      sum_map_update_w _ _ _ _ _ hmem_bits1 hnd
    have hW3 : ((List.range (B + 1)).map (fun b => blc3 b * 2 ^ (B - b))).sum +
        blc2 B * 2 ^ (B - B) =
        ((List.range (B + 1)).map (fun b => blc2 b * 2 ^ (B - b))).sum +
        (blc2 B - 1) * 2 ^ (B - B) := by
      rw [hblc3_eq]
      exact sum_map_update_w _ _ _ _ _ hmemB hnd
    -- plain sums through the three updates
    have hT1 : ((List.range (B + 1)).map blc1).sum + blc bits =
        ((List.range (B + 1)).map blc).sum + (blc bits - 1) :=
      sum_map_update_plain _ _ _ _ hmem_bits hnd
    have hT2 : ((List.range (B + 1)).map blc2).sum + blc1 (bits + 1) =
        ((List.range (B + 1)).map blc1).sum + ((blc1 (bits + 1) + 2) % 65536) :=
      sum_map_update_plain _ _ _ _ hmem_bits1 hnd
    have hT3 : ((List.range (B + 1)).map blc3).sum + blc2 B =
        ((List.range (B + 1)).map blc2).sum + (blc2 B - 1) := by
      rw [hblc3_eq]
      exact sum_map_update_plain _ _ _ _ hmemB hnd
    -- arithmetic on the weights
    have hwsplit : blc bits * 2 ^ (B - bits) =
        (blc bits - 1) * 2 ^ (B - bits) + 2 ^ (B - bits) := by
      have h1 : blc bits = (blc bits - 1) + 1 := by omega
      calc blc bits * 2 ^ (B - bits) = ((blc bits - 1) + 1) * 2 ^ (B - bits) := by
            rw [← h1]
      _ = (blc bits - 1) * 2 ^ (B - bits) + 2 ^ (B - bits) := by ring
    have hwsplit2 : ((blc1 (bits + 1) + 2) % 65536) * 2 ^ (B - (bits + 1)) =
        blc1 (bits + 1) * 2 ^ (B - (bits + 1)) + 2 * 2 ^ (B - (bits + 1)) := by
      rw [hmod, hb1v]
      ring
    have hwsplit3 : blc2 B * 2 ^ (B - B) = (blc2 B - 1) * 2 ^ (B - B) + 1 := by
      rw [Nat.sub_self, pow_zero, mul_one, mul_one]
      omega
    have hpow : 2 ^ (B - bits) = 2 * 2 ^ (B - (bits + 1)) := by
      rw [show B - bits = (B - (bits + 1)) + 1 by omega, pow_succ]
      ring
    have hW3v : ((List.range (B + 1)).map (fun b => blc3 b * 2 ^ (B - b))).sum + 1 =
        ((List.range (B + 1)).map (fun b => blc b * 2 ^ (B - b))).sum := by
      omega
    have hT3v : ((List.range (B + 1)).map blc3).sum =
        ((List.range (B + 1)).map blc).sum := by
      rw [hmod] at hT2
      rw [hb1v] at hT2
      omega
    have hframe3 : ∀ b, B < b → blc3 b = blc b := by
      intro b hbgt
      rw [hblc3, Function.update_noteq (show b ≠ B by omega)]
      rw [hblc2, Function.update_noteq (show b ≠ bits + 1 by omega)]
      rw [hblc1, Function.update_noteq (show b ≠ bits by omega)]
    have h03 : blc3 0 = 0 := by
      rw [hblc3, Function.update_noteq (show (0 : Nat) ≠ B by omega)]
      rw [hblc2, Function.update_noteq (show (0 : Nat) ≠ bits + 1 by omega)]
      rw [hblc1, Function.update_noteq (show (0 : Nat) ≠ bits by omega)]
      exact h0
    rw [repairGo_succ, hfind]
    dsimp only
    by_cases hstop : ov ≤ 2
    · rw [if_pos hstop]
      have hov2e : ov = 2 := by omega
      refine ⟨blc3, rfl, ?_, hT3v, h03, hframe3⟩
      rw [hov2e] at hW
      omega
    · rw [if_neg hstop]
      have hB3 : (ov - 2) / 2 ≤ blc3 B := by
        have hup : blc2 B + 1 = blc B + (if bits + 1 = B then 2 else 0) + 1 := by
          by_cases hcs : bits + 1 = B
          · rw [if_pos hcs]
            have e1 : blc2 B = blc (bits + 1) + 2 := by
              rw [hblc2, ← hcs, Function.update_same, hmod]
            rw [e1, hcs]
          · rw [hblc2, Function.update_noteq (show B ≠ bits + 1 from
                fun he => hcs he.symm),
              hblc1, Function.update_noteq (show B ≠ bits by omega), if_neg hcs]
        rw [hblc3_eq, Function.update_same]
        split_ifs at hup <;> omega
      obtain ⟨blc4, hrec, hW4, hT4, h04, hframe4⟩ :=
        ih B blc3 (ov - 2) hB1 hB15 (by omega) (by omega) (by omega) h03
          (by omega) (by omega) hB3
      refine ⟨blc4, hrec, hW4, by omega, h04, ?_⟩
      intro b hbgt
      rw [hframe4 b hbgt, hframe3 b hbgt]

/-- Claim C4: when the Huffman construction yields code lengths above the
alphabet maximum (a positive overflow count), the repair loop of gen_bitlen
terminates without reaching the undefined bucket search below index 0,
preserves the number of coded symbols, leaves every nonempty length bucket
inside [1, max_length], and restores the Kraft equality, so the repaired
multiset of code lengths is a complete, decodable prefix code. -/
theorem gen_bitlen_repair_valid (fuel B : Nat) (blc : Nat → Nat) (ov : Nat)
    (hB1 : 1 ≤ B) (hB15 : B ≤ 15) (hov2 : 2 ≤ ov) (hovev : ov % 2 = 0)
    (hovf : ov ≤ 2 * fuel) (h0 : blc 0 = 0) (hhi : ∀ b, B < b → blc b = 0)
    (hW : ((List.range (B + 1)).map (fun b => blc b * 2 ^ (B - b))).sum =
      2 ^ B + ov / 2)
    (hT : ((List.range (B + 1)).map blc).sum ≤ 2 ^ B)
    (hBc : ov / 2 ≤ blc B) :
    ∃ blc2, repairGo B fuel blc ov = some blc2 ∧
      ((List.range (B + 1)).map (fun b => blc2 b * 2 ^ (B - b))).sum = 2 ^ B ∧
      ((List.range (B + 1)).map blc2).sum = ((List.range (B + 1)).map blc).sum ∧
      (∀ b, blc2 b ≠ 0 → 1 ≤ b ∧ b ≤ B) := by
  obtain ⟨blc2, h1, h2, h3, h4, h5⟩ :=
    repairGo_spec fuel B blc ov hB1 hB15 hov2 hovev hovf h0 hW hT hBc
  refine ⟨blc2, h1, h2, h3, ?_⟩
  intro b hb
  constructor
  · rcases Nat.eq_zero_or_pos b with rfl | hp
    · exact absurd h4 hb
    · exact hp
  · by_contra hgt
    exact hb (by rw [h5 b (by omega)]; exact hhi b (by omega))

theorem gen_bitlen_repair_valid_witness : ∃ blc2,
    repairGo 2 2 (fun b => if b = 1 then 1 else if b = 2 then 3 else 0) 2 =
      some blc2 ∧
    ((List.range (2 + 1)).map (fun b => blc2 b * 2 ^ (2 - b))).sum = 2 ^ 2 ∧
    ((List.range (2 + 1)).map blc2).sum = ((List.range (2 + 1)).map
      (fun b => if b = 1 then 1 else if b = 2 then 3 else 0)).sum ∧
    (∀ b, blc2 b ≠ 0 → 1 ≤ b ∧ b ≤ 2) :=
  gen_bitlen_repair_valid 2 2 (fun b => if b = 1 then 1 else if b = 2 then 3 else 0)
    2 (by decide) (by decide) (by decide) (by decide) (by decide) (by decide)
    (by
      intro b hb
      dsimp only
      rw [if_neg (by omega), if_neg (by omega)])
    (by decide) (by decide) (by decide)

end LunaZlib
